import Mathlib

/-!
# idl-conv: character cursor, field builder, struct parser and renderers

A shallow embedding of `charIter.go` and `parse.go`.

Conventions of the embedding
* Go `int` positions are `Int` (no arithmetic here leaves the range of a slice length).
* A Go `rune` (an `int32`) is an `Int`; a `[]rune` is a `List rune`.
* A Go `error` is an `Option String`: `none` is `nil`, `some msg` is `errors.New(msg)`.
* A method with a pointer receiver returns the receiver's new state next to its results
  (`HasNext` and `GetField`, which assign nothing, return their results only).
* Library functions whose text is not part of the repository (`strconv.QuoteRune`) are
  parameters of the functions that call them.
* Where the code writes through a `*FieldDesc` held in a slice (`StructDesc.ProtobufVer`), the
  slice is a list of addresses into a heap of `FieldDesc` objects, so that an object listed
  twice is one object.
-/

namespace IdlConv

/-! ## charIter.go -/

/-- Go's `rune`, an alias of `int32`. -/
abbrev rune := Int

/-- The struct `CharIterator` of charIter.go: position `i`, the runes, and their count `n`. -/
structure CharIterator where
  i : Int
  runes : List rune
  n : Int
deriving DecidableEq, Repr

/-- The conversion `[]rune(str)`: the code points of the string, in order. -/
def toRunes (str : String) : List rune :=
  str.toList.map (fun c => (c.toNat : Int))

/-- The constructor `NewCharIterator`: position 0 over the runes of `str`. -/
def NewCharIterator (str : String) : CharIterator :=
  let runes := toRunes str
  { i := 0, runes := runes, n := (runes.length : Int) }

/-- The index expression `runes[i]`; `none` where Go would panic (index out of range). -/
def runeAt (runes : List rune) (i : Int) : Option rune :=
  if 0 ≤ i then runes.get? i.toNat else none

/-- The conversion `string(r)` of a rune: its one-character string, U+FFFD if `r` is not a
valid code point. -/
def runeString (r : rune) : String :=
  if 0 ≤ r ∧ r.toNat.isValidChar then String.singleton (Char.ofNat r.toNat)
  else String.singleton (Char.ofNat 0xFFFD)

/-- The method `HasNext`: `cit.i < cit.n`. -/
def CharIterator.HasNext (cit : CharIterator) : Bool :=
  decide (cit.i < cit.n)

/-- The method `Next`: the character at the position and one step forward, or the error
"no more character" with the cursor unchanged. -/
def CharIterator.Next (cit : CharIterator) : (String × Option String) × CharIterator :=
  if !cit.HasNext then
    (("", some "no more character"), cit)
  else
    let char := match runeAt cit.runes cit.i with
      | some r => runeString r
      | none => ""
    ((char, none), { cit with i := cit.i + 1 })

/-- The loop of `JumpTo` after its init statement:
`for ; cit.HasNext() && cit.runes[cit.i] != tar; cit.i++ {}`. -/
def CharIterator.jumpLoop (cit : CharIterator) (tar : rune) : CharIterator :=
  if cit.HasNext && runeAt cit.runes cit.i != some tar then
    CharIterator.jumpLoop { cit with i := cit.i + 1 } tar
  else
    cit
termination_by (cit.n - cit.i).toNat
decreasing_by
  simp_wf
  simp only [CharIterator.HasNext, Bool.and_eq_true, decide_eq_true_eq] at *
  omega

/-- The method `JumpTo`: fails on an exhausted cursor; otherwise steps once, scans for `tar`,
fails at the end of the input, and else steps past the match. -/
def CharIterator.JumpTo (QuoteRune : rune → String) (cit : CharIterator) (tar : rune) :
    Option String × CharIterator :=
  if !cit.HasNext then
    (some "no more character", cit)
  else
    let cit := CharIterator.jumpLoop { cit with i := cit.i + 1 } tar
    if cit.i == cit.n then
      (some ("cannot jump to " ++ QuoteRune tar), cit)
    else
      (none, { cit with i := cit.i + 1 })

/-- The method `SkipUntil`: `JumpTo`, then one step back when it succeeded. -/
def CharIterator.SkipUntil (QuoteRune : rune → String) (cit : CharIterator) (tar : rune) :
    Option String × CharIterator :=
  match CharIterator.JumpTo QuoteRune cit tar with
  | (some err, cit) => (some err, cit)
  | (none, cit) => (none, { cit with i := cit.i - 1 })

/-- One call on a cursor: `Next`, `JumpTo(tar)` or `SkipUntil(tar)`. -/
inductive CursorOp where
  | next
  | jumpTo (tar : rune)
  | skipUntil (tar : rune)
deriving DecidableEq, Repr

/-- The cursor after one call, whether the call succeeded or failed. -/
def CharIterator.apply (QuoteRune : rune → String) (cit : CharIterator) :
    CursorOp → CharIterator
  | .next => (cit.Next).2
  | .jumpTo tar => (cit.JumpTo QuoteRune tar).2
  | .skipUntil tar => (cit.SkipUntil QuoteRune tar).2

/-- The cursor after a finite sequence of calls, made in order. -/
def CharIterator.run (QuoteRune : rune → String) (cit : CharIterator)
    (ops : List CursorOp) : CharIterator :=
  ops.foldl (CharIterator.apply QuoteRune) cit

/-- The cursor invariant of the data model: the count is the number of runes and the
position lies in `[0, n]`. -/
def CharIterator.Inv (cit : CharIterator) : Prop :=
  cit.n = (cit.runes.length : Int) ∧ 0 ≤ cit.i ∧ cit.i ≤ cit.n

/-! ## parse.go

The declarations of the package that parse.go uses without defining them (`Token` and its
methods, the token constants, the token cursor) are modelled from the specification; each
such definition says so. `Camel2Snake` and `Token.Quote` are parameters. -/

/-- Modelled from the spec: the type `Token`, a classified lexical unit; parse.go converts it
from and to `string`, slices it and uses it as a map key, so it is a string. -/
abbrev Token := String

/-- The constant `Star`. -/
def Star : String := "*"

/-- The constant `Slice`. -/
def Slice : String := "[]"

/-- Modelled from the spec: the constant `Type`, the token of the keyword `type`. -/
def TypeToken : Token := "type"

/-- Modelled from the spec: the constant `RtCurlBrace`, the closing-brace token. -/
def RtCurlBrace : Token := "\x7d"

/-- Modelled from the spec: the constant `NewLine`, the newline token and line terminator. -/
def NewLine : String := "\n"

/-- Modelled from the spec: the constant `Space`, one blank. -/
def Space : String := " "

/-- Modelled from the spec: the method `Token.String` (here `asString`), the token's text. -/
def Token.asString (t : Token) : String := t

/-- Modelled from the spec: the method `Token.StartsWith`, whether the token's text begins
with `s`. -/
def Token.StartsWith (t : Token) (s : String) : Bool :=
  s.toList.isPrefixOf t.toList

/-- The slice expression `t[k:]` of a token whose first `k` bytes are `k` one-byte characters
(parse.go slices only behind a `StartsWith` of an ASCII marker of that length). -/
def Token.sliceFrom (t : Token) (k : Nat) : Token :=
  String.mk (t.toList.drop k)

/-- The library function `strings.Repeat`. -/
def stringsRepeat (s : String) (count : Nat) : String :=
  String.join (List.replicate count s)

/-- The table `builtinTypeMapping`, as its list of key-value pairs. -/
def builtinTypeMapping : List (Token × String) :=
  [ ("float32", "float"),
    ("float64", "float"),
    ("int", "int32"),
    ("int16", "int32"),
    ("int32", "int32"),
    ("int64", "int64"),
    ("int8", "int32"),
    ("rune", "rune"),
    ("string", "string"),
    ("uint", "uint32"),
    ("uint16", "uint32"),
    ("uint32", "uint32"),
    ("uint64", "uint64"),
    ("uint8", "uint32") ]

/-- The two-result map index `v, found := m[k]`: the zero value `""` and `false` for a
missing key. -/
def mapIndex (m : List (Token × String)) (k : Token) : String × Bool :=
  match m.lookup k with
  | some v => (v, true)
  | none => ("", false)

/-- The struct `FieldDesc`. -/
structure FieldDesc where
  OrigFName : Token
  FName : Token
  FType : Token
  IsPointer : Bool
  IsSlice : Bool
  IsPrimitive : Bool
  IsMap : Bool
  BackTickComment : String
  SlashedComment : String
deriving DecidableEq, Repr

/-- The method `FieldDesc.ProtobufVer`: rewrites `FType` through the table when `IsPrimitive`
is set, then renders the line; returns the text and the receiver's new state. -/
def FieldDesc.ProtobufVer (Camel2Snake : String → String) (f : FieldDesc) (idx : Int) :
    String × FieldDesc :=
  let f := if f.IsPrimitive then { f with FType := (mapIndex builtinTypeMapping f.FType).1 }
    else f
  let s := Token.asString f.FType ++ " " ++ Camel2Snake (Token.asString f.FName) ++ " = " ++
    toString idx ++ ";"
  let s := if f.IsSlice then "repeated " ++ s else s
  (s, f)

/-- The struct `StructDesc`, with its `[]*FieldDesc` read as the list of the `FieldDesc`
values pointed to: the view of the code that builds the fields (`Parse`) or only reads them
(`String`, `GetField`). `ProtobufVer`, which writes through the pointers, takes the struct as
`StructDescMem`. A nil and an empty slice of fields are both `[]`, the source only ranges
over them. -/
structure StructDesc where
  TName : Token
  Fields : List FieldDesc
  dependencies : List FieldDesc
deriving DecidableEq, Repr

/-- The address of a `FieldDesc` object, a non-nil `*FieldDesc`. -/
abbrev FieldPtr := Nat

/-- The `FieldDesc` objects in memory, by address. -/
abbrev FieldHeap := FieldPtr → FieldDesc

/-- The struct `StructDesc` as it lies in memory: its `[]*FieldDesc` is the list of the
addresses it holds, and one object may be listed more than once. -/
structure StructDescMem where
  TName : Token
  Fields : List FieldPtr
  dependencies : List FieldDesc
deriving DecidableEq, Repr

/-- The values a struct in memory points to: the struct as `StructDesc`. -/
def StructDescMem.read (t : StructDescMem) (heap : FieldHeap) : StructDesc :=
  { TName := t.TName, Fields := t.Fields.map heap, dependencies := t.dependencies }

/-- The loop of `StructDesc.ProtobufVer` from index `i` on, with the text so far: each call
of `f.ProtobufVer(i+1)` reads the object at the address `f` and writes its new state back
there; the result is the new text and the objects as the calls left them. -/
def StructDesc.protobufLoop (Camel2Snake : String → String) :
    List FieldPtr → Nat → String → FieldHeap → String × FieldHeap
  | [], _, s, heap => (s, heap)
  | f :: fs, i, s, heap =>
    let r := (heap f).ProtobufVer Camel2Snake ((i : Int) + 1)
    let heap := Function.update heap f r.2
    let s := s ++ (stringsRepeat Space 4 ++ r.1 ++ NewLine)
    StructDesc.protobufLoop Camel2Snake fs (i + 1) s heap

/-- The method `StructDesc.ProtobufVer`: the message text and the objects as the call left
them. -/
def StructDesc.ProtobufVer (Camel2Snake : String → String) (t : StructDescMem)
    (heap : FieldHeap) : String × FieldHeap :=
  let s := "message " ++ Token.asString t.TName ++ "\x7b\n"
  let r := StructDesc.protobufLoop Camel2Snake t.Fields 0 s heap
  (r.1 ++ "\x7d", r.2)

/-- The state a call of `FieldDesc.ProtobufVer` leaves the field in; it is the same for every
index and name conversion. -/
def FieldDesc.rendered (f : FieldDesc) : FieldDesc :=
  (f.ProtobufVer id 0).2

/-- The function `parseField`. -/
def parseField (fName fType : Token) : FieldDesc :=
  let f : FieldDesc :=
    { OrigFName := fName, FName := fName, FType := fType, IsPointer := false,
      IsSlice := false, IsPrimitive := false, IsMap := false, BackTickComment := "",
      SlashedComment := "" }
  let f := if Token.StartsWith f.FType Slice then
      { f with IsSlice := true, FType := Token.sliceFrom f.FType 2 }
    else f
  let f := if Token.StartsWith f.FType Star then
      { f with IsPointer := true, FType := Token.sliceFrom f.FType 1 }
    else f
  let f := if (mapIndex builtinTypeMapping f.FType).2 then { f with IsPrimitive := true }
    else f
  f

/-- Modelled from the spec: the token cursor the parser drives ("fetch next token, skipping
newlines" with its companion "has more tokens"), as the tokens not yet consumed. -/
structure TokenIterator where
  rest : List Token
deriving DecidableEq, Repr

/-- Modelled from the spec: the constructor `NewTokenIterator`, a cursor before the first
token. -/
def NewTokenIterator (tokens : List Token) : TokenIterator :=
  { rest := tokens }

/-- Modelled from the spec: the method `TokenIterator.HasNext`, whether a token is left. -/
def TokenIterator.HasNext (it : TokenIterator) : Bool :=
  !it.rest.isEmpty

/-- Modelled from the spec: the text of the `NoMoreTokens` error. -/
def errNoMoreTokens : String := "no more token"

/-- Modelled from the spec: the method `TokenIterator.NextNonNewLine`, which consumes the
newline tokens at the cursor and the token behind them and returns that token; on a stream
with no such token it fails with `NoMoreTokens` and leaves the cursor exhausted. -/
def TokenIterator.NextNonNewLine (it : TokenIterator) :
    (Token × Option String) × TokenIterator :=
  match it.rest.dropWhile (fun tk => tk == NewLine) with
  | [] => (("", some errNoMoreTokens), { rest := [] })
  | tk :: rest => ((tk, none), { rest := rest })

/-- The append `append(s, x)` on a slice that may be nil (`none`). -/
def goAppend {α : Type} (s : Option (List α)) (x : α) : Option (List α) :=
  match s with
  | none => some [x]
  | some l => some (l ++ [x])

/-- The inner loop of `Parse` after its init statement, entered with the token and error of
the last `NextNonNewLine`: an error is a `return nil, err` of `Parse`; otherwise the fields
collected and the cursor at the loop's exit. -/
def Parse.fieldLoop (it : TokenIterator) (fieldName : Token) (err : Option String)
    (fieldDescList : List FieldDesc) : Except String (List FieldDesc × TokenIterator) :=
  if it.HasNext && fieldName != RtCurlBrace then
    match err with
    | some e => .error e
    | none =>
      let r1 := it.NextNonNewLine
      match r1.1.2 with
      | some e => .error e
      | none =>
        let fieldDescList := fieldDescList ++ [parseField fieldName r1.1.1]
        let r2 := r1.2.NextNonNewLine
        Parse.fieldLoop r2.2 r2.1.1 r2.1.2 fieldDescList
  else
    .ok (fieldDescList, it)
termination_by it.rest.length
decreasing_by
  simp_wf
  rename_i hc
  have hne : it.rest ≠ [] := by
    simp only [TokenIterator.HasNext, Bool.and_eq_true, Bool.not_eq_true',
      List.isEmpty_eq_false_iff_exists_mem] at hc
    obtain ⟨⟨x, hx⟩, -⟩ := hc
    exact List.ne_nil_of_mem hx
  have step : ∀ c : TokenIterator, c.NextNonNewLine.2.rest.length ≤ c.rest.length ∧
      (c.rest ≠ [] → c.NextNonNewLine.2.rest.length < c.rest.length) := by
    intro c
    have hs := (List.dropWhile_suffix (l := c.rest) (fun tk => tk == NewLine)).length_le
    unfold TokenIterator.NextNonNewLine
    split
    · refine ⟨Nat.zero_le _, fun h => List.length_pos.mpr h⟩
    · rename_i tk rest heq
      rw [heq] at hs
      simp only [List.length_cons] at hs
      show rest.length ≤ c.rest.length ∧ (c.rest ≠ [] → rest.length < c.rest.length)
      exact ⟨by omega, fun _ => by omega⟩
  have h1 := (step it).2 hne
  have h2 := (step it.NextNonNewLine.2).1
  omega

/-- The outer loop of `Parse` after its init statement, entered with the token and error of
the last `NextNonNewLine` and the list built so far (`none` is the nil slice): the two
results of `Parse`. -/
def Parse.typeLoop (Quote : Token → String) (it : TokenIterator) (tk : Token)
    (err : Option String) (typeDescList : Option (List StructDesc)) :
    Option (List StructDesc) × Option String :=
  if it.HasNext then
    match err with
    | some e => (none, some e)
    | none =>
      if tk != TypeToken then
        (none, some ("expect 'type' keyword, but got " ++ Quote tk))
      else
        let r1 := it.NextNonNewLine
        let r2 := r1.2.NextNonNewLine
        let r3 := r2.2.NextNonNewLine
        let r4 := r3.2.NextNonNewLine
        match _hf : Parse.fieldLoop r4.2 r4.1.1 r4.1.2 [] with
        | .error e => (none, some e)
        | .ok (fieldDescList, it2) =>
          let r5 := it2.NextNonNewLine
          Parse.typeLoop Quote r5.2 r5.1.1 r5.1.2
            (goAppend typeDescList
              { TName := r1.1.1, Fields := fieldDescList, dependencies := [] })
  else
    (typeDescList, none)
termination_by it.rest.length
decreasing_by
  simp_wf
  have hc : it.HasNext = true := by assumption
  have hne : it.rest ≠ [] := by
    simp only [TokenIterator.HasNext, Bool.not_eq_true',
      List.isEmpty_eq_false_iff_exists_mem] at hc
    obtain ⟨x, hx⟩ := hc
    exact List.ne_nil_of_mem hx
  have step : ∀ c : TokenIterator, c.NextNonNewLine.2.rest.length ≤ c.rest.length ∧
      (c.rest ≠ [] → c.NextNonNewLine.2.rest.length < c.rest.length) := by
    intro c
    have hs := (List.dropWhile_suffix (l := c.rest) (fun tk => tk == NewLine)).length_le
    unfold TokenIterator.NextNonNewLine
    split
    · refine ⟨Nat.zero_le _, fun h => List.length_pos.mpr h⟩
    · rename_i tk rest heq
      rw [heq] at hs
      simp only [List.length_cons] at hs
      show rest.length ≤ c.rest.length ∧ (c.rest ≠ [] → rest.length < c.rest.length)
      exact ⟨by omega, fun _ => by omega⟩
  have inner : ∀ (c : TokenIterator) (fn : Token) (e : Option String) (l : List FieldDesc)
      (l2 : List FieldDesc) (c2 : TokenIterator),
      Parse.fieldLoop c fn e l = .ok (l2, c2) → c2.rest.length ≤ c.rest.length := by
    intro c fn e l
    induction c, fn, e, l using Parse.fieldLoop.induct with
    | case1 c fn l hcond e =>
      intro l2 c2 h
      rw [Parse.fieldLoop.eq_def, if_pos hcond] at h
      exact Except.noConfusion h
    | case2 c fn l hcond r1 e he =>
      intro l2 c2 h
      rw [Parse.fieldLoop.eq_def, if_pos hcond] at h
      simp only [r1] at he
      simp only [he] at h
      exact Except.noConfusion h
    | case3 c fn l hcond r1 he _ r2 ih =>
      intro l2 c2 h
      rw [Parse.fieldLoop.eq_def, if_pos hcond] at h
      simp only [r1] at he
      simp only [he] at h
      have := ih l2 c2 h
      have h1 := (step c).1
      have h2 := (step c.NextNonNewLine.2).1
      simp only [r2, r1] at this
      omega
    | case4 c fn e l hcond =>
      intro l2 c2 h
      rw [Parse.fieldLoop.eq_def, if_neg hcond] at h
      injection h with h
      injection h with _ h
      subst h
      exact le_refl _
  have h1 := (step it).2 hne
  have h2 := (step it.NextNonNewLine.2).1
  have h3 := (step it.NextNonNewLine.2.NextNonNewLine.2).1
  have h4 := (step it.NextNonNewLine.2.NextNonNewLine.2.NextNonNewLine.2).1
  have h5 := inner _ _ _ _ _ _ _hf
  have h6 := (step it2).1
  simp only [r4, r3, r2, r1] at h5
  omega

/-- The function `Parse`: the list of struct descriptions (`none` is the nil slice) and the
error. -/
def Parse (Quote : Token → String) (tokens : List Token) :
    Option (List StructDesc) × Option String :=
  let it := NewTokenIterator tokens
  let r := it.NextNonNewLine
  Parse.typeLoop Quote r.2 r.1.1 r.1.2 none

/-- A well-formed type block `type N struct { (fieldName fieldType)* }`: its name and its
(name, type) pairs in declaration order. -/
structure TypeBlock where
  N : Token
  fields : List (Token × Token)
deriving DecidableEq, Repr

/-- The tokens of the fields of a block, in order. -/
def fieldTokens (fields : List (Token × Token)) : List Token :=
  fields.flatMap (fun p => [p.1, p.2])

/-- The tokens of a type block, in order. -/
def TypeBlock.tokens (b : TypeBlock) : List Token :=
  [TypeToken, b.N, "struct", "\x7b"] ++ fieldTokens b.fields ++ [RtCurlBrace]

/-- The block has no newline token and no field name equal to the closing brace. -/
def TypeBlock.WellFormed (b : TypeBlock) : Prop :=
  b.N ≠ NewLine ∧ ∀ p ∈ b.fields, p.1 ≠ NewLine ∧ p.2 ≠ NewLine ∧ p.1 ≠ RtCurlBrace

instance (b : TypeBlock) : Decidable b.WellFormed := by
  unfold TypeBlock.WellFormed
  infer_instance

/-- The `StructDesc` a block describes: its name and `parseField` of its pairs, in order. -/
def TypeBlock.desc (b : TypeBlock) : StructDesc :=
  { TName := b.N, Fields := b.fields.map (fun p => parseField p.1 p.2), dependencies := [] }

/-- The method `FieldDesc.String` (here `asString`): the field line of the struct rendering,
with the slash comment behind it when that comment has a byte; returns the text and the
receiver, to which the source assigns nothing. -/
def FieldDesc.asString (Camel2Snake : String → String) (f : FieldDesc) :
    String × FieldDesc :=
  let s := Token.asString f.FName ++ " " ++ Token.asString f.FType ++ " `json:\"" ++
    Camel2Snake (Token.asString f.FName) ++ "\"`"
  let s := if f.SlashedComment.utf8ByteSize > 0 then s ++ (" // " ++ f.SlashedComment) else s
  (s, f)

/-- The loop of `StructDesc.String` with the text so far: the new text and the fields as the
calls left them. -/
def StructDesc.stringLoop (Camel2Snake : String → String) :
    List FieldDesc → String → String × List FieldDesc
  | [], s => (s, [])
  | f :: fs, s =>
    let r := f.asString Camel2Snake
    let s := s ++ (r.1 ++ "\n")
    let rest := StructDesc.stringLoop Camel2Snake fs s
    (rest.1, r.2 :: rest.2)

/-- The method `StructDesc.String` (here `asString`): the struct text and the receiver's
state after the call. -/
def StructDesc.asString (Camel2Snake : String → String) (t : StructDesc) :
    String × StructDesc :=
  let s := "type " ++ Token.asString t.TName ++ " struct \x7b\n"
  let r := StructDesc.stringLoop Camel2Snake t.Fields s
  (r.1 ++ "\x7d", { t with Fields := r.2 })

/-- The loop of `StructDesc.GetField` and the return behind it: the first field whose name is
`fieldName`, or the error "no such field". -/
def StructDesc.getFieldLoop : List FieldDesc → String → Option FieldDesc × Option String
  | [], _ => (none, some "no such field")
  | f :: fs, fieldName =>
    if Token.asString f.FName == fieldName then (some f, none)
    else StructDesc.getFieldLoop fs fieldName

/-- The method `StructDesc.GetField`: the field found (`none` is the nil pointer) and the
error. It assigns nothing to the receiver. -/
def StructDesc.GetField (t : StructDesc) (fieldName : String) :
    Option FieldDesc × Option String :=
  StructDesc.getFieldLoop t.Fields fieldName

/-- The tokens of a type block up to, and without, its closing brace. -/
def TypeBlock.openTokens (b : TypeBlock) : List Token :=
  [TypeToken, b.N, "struct", "\x7b"] ++ fieldTokens b.fields

/-- The inner loop of `Parse` with a budget of iterations: `none` when the loop would enter
its body more than `fuel` times, and else the result of `Parse.fieldLoop`. -/
def Parse.fieldLoopN : Nat → TokenIterator → Token → Option String → List FieldDesc →
    Option (Except String (List FieldDesc × TokenIterator))
  | 0, it, fieldName, _, fieldDescList =>
    if it.HasNext && fieldName != RtCurlBrace then none
    else some (.ok (fieldDescList, it))
  | fuel + 1, it, fieldName, err, fieldDescList =>
    if it.HasNext && fieldName != RtCurlBrace then
      match err with
      | some e => some (.error e)
      | none =>
        let r1 := it.NextNonNewLine
        match r1.1.2 with
        | some e => some (.error e)
        | none =>
          let fieldDescList := fieldDescList ++ [parseField fieldName r1.1.1]
          let r2 := r1.2.NextNonNewLine
          Parse.fieldLoopN fuel r2.2 r2.1.1 r2.1.2 fieldDescList
    else
      some (.ok (fieldDescList, it))

/-- The outer loop of `Parse` with a budget of iterations, which it also grants to each run
of the inner loop: `none` when a loop would enter its body more often than its budget. -/
def Parse.typeLoopN (Quote : Token → String) : Nat → TokenIterator → Token → Option String →
    Option (List StructDesc) → Option (Option (List StructDesc) × Option String)
  | 0, it, _, _, typeDescList =>
    if it.HasNext then none else some (typeDescList, none)
  | fuel + 1, it, tk, err, typeDescList =>
    if it.HasNext then
      match err with
      | some e => some (none, some e)
      | none =>
        if tk != TypeToken then
          some (none, some ("expect 'type' keyword, but got " ++ Quote tk))
        else
          let r1 := it.NextNonNewLine
          let r2 := r1.2.NextNonNewLine
          let r3 := r2.2.NextNonNewLine
          let r4 := r3.2.NextNonNewLine
          match Parse.fieldLoopN fuel r4.2 r4.1.1 r4.1.2 [] with
          | none => none
          | some (.error e) => some (none, some e)
          | some (.ok (fieldDescList, it2)) =>
            let r5 := it2.NextNonNewLine
            Parse.typeLoopN Quote fuel r5.2 r5.1.1 r5.1.2
              (goAppend typeDescList
                { TName := r1.1.1, Fields := fieldDescList, dependencies := [] })
    else
      some (typeDescList, none)

/-- The function `Parse` with a budget of loop iterations. -/
def ParseN (Quote : Token → String) (fuel : Nat) (tokens : List Token) :
    Option (Option (List StructDesc) × Option String) :=
  let it := NewTokenIterator tokens
  let r := it.NextNonNewLine
  Parse.typeLoopN Quote fuel r.2 r.1.1 r.1.2 none

/-! ## Facts about the scan of `JumpTo` -/

/-- The scan keeps the runes and their count, never moves backwards, stays within the input,
stops only at the end or on `tar`, and passes over no occurrence of `tar`. -/
theorem CharIterator.jumpLoop_spec (cit : CharIterator) (tar : rune) :
    (cit.jumpLoop tar).runes = cit.runes ∧ (cit.jumpLoop tar).n = cit.n ∧
    cit.i ≤ (cit.jumpLoop tar).i ∧
    (cit.i ≤ cit.n → (cit.jumpLoop tar).i ≤ cit.n) ∧
    ((cit.jumpLoop tar).i < cit.n → runeAt cit.runes (cit.jumpLoop tar).i = some tar) ∧
    ∀ j, cit.i ≤ j → j < (cit.jumpLoop tar).i → runeAt cit.runes j ≠ some tar := by
  induction cit, tar using CharIterator.jumpLoop.induct with
  | case1 cit tar hc ih =>
    rw [CharIterator.jumpLoop, if_pos hc]
    simp only [CharIterator.HasNext, Bool.and_eq_true, decide_eq_true_eq, bne_iff_ne,
      ne_eq] at hc
    obtain ⟨h1, h2, h3, h4, h5, h6⟩ := ih
    simp only at h1 h2 h3 h4 h5 h6
    refine ⟨h1, h2, by omega, fun _ => h4 (by omega), h5, ?_⟩
    intro j hj hlt
    by_cases hji : j = cit.i
    · subst hji; exact hc.2
    · exact h6 j (by omega) hlt
  | case2 cit tar hc =>
    rw [CharIterator.jumpLoop, if_neg hc]
    simp only [CharIterator.HasNext, Bool.and_eq_true, decide_eq_true_eq, bne_iff_ne,
      ne_eq, not_and, not_not] at hc
    refine ⟨rfl, rfl, le_refl _, fun h => h, fun h => hc h, ?_⟩
    intro j hj hlt
    omega

/-- The scan changes nothing but the position. -/
theorem CharIterator.jumpLoop_eq (cit : CharIterator) (tar : rune) :
    cit.jumpLoop tar = { cit with i := (cit.jumpLoop tar).i } := by
  obtain ⟨h1, h2, -⟩ := CharIterator.jumpLoop_spec cit tar
  cases h : cit.jumpLoop tar with
  | mk i runes n =>
    rw [h] at h1 h2
    simp only at h1 h2
    subst h1 h2
    rfl

/-- An index that holds a rune lies inside the slice. -/
theorem runeAt_some_bounds {runes : List rune} {k : Int} {r : rune}
    (h : runeAt runes k = some r) : 0 ≤ k ∧ k < (runes.length : Int) := by
  unfold runeAt at h
  split at h
  · rename_i hk
    have hlt : k.toNat < runes.length := by
      by_contra hge
      rw [List.get?_eq_none.mpr (by omega)] at h
      exact Option.noConfusion h
    exact ⟨hk, by omega⟩
  · exact Option.noConfusion h

/-- A rune held at some index is a member of the slice. -/
theorem runeAt_some_mem {runes : List rune} {k : Int} {r : rune}
    (h : runeAt runes k = some r) : r ∈ runes := by
  unfold runeAt at h
  split at h
  · exact List.get?_mem h
  · exact Option.noConfusion h

/-- Where the scan stops when `tar` first occurs at `k`, at or after the start. -/
theorem CharIterator.jumpLoop_found (cit : CharIterator) (tar : rune) (k : Int)
    (hn : cit.n = (cit.runes.length : Int)) (hk : cit.i ≤ k)
    (hat : runeAt cit.runes k = some tar)
    (hmin : ∀ j, cit.i ≤ j → j < k → runeAt cit.runes j ≠ some tar) :
    (cit.jumpLoop tar).i = k := by
  obtain ⟨-, -, h3, h4, h5, h6⟩ := CharIterator.jumpLoop_spec cit tar
  have hkn := (runeAt_some_bounds hat).2
  have hle : (cit.jumpLoop tar).i ≤ k := by
    by_contra hgt
    exact h6 k hk (by omega) hat
  have hge : k ≤ (cit.jumpLoop tar).i := by
    by_contra hlt
    exact hmin _ h3 (by omega) (h5 (by omega))
  omega

/-- Where the scan stops when `tar` does not occur at all: at the end of the input. -/
theorem CharIterator.jumpLoop_absent (cit : CharIterator) (tar : rune)
    (hle : cit.i ≤ cit.n) (hno : tar ∉ cit.runes) :
    (cit.jumpLoop tar).i = cit.n := by
  obtain ⟨-, -, -, h4, h5, -⟩ := CharIterator.jumpLoop_spec cit tar
  have h := h4 hle
  by_contra hne
  exact hno (runeAt_some_mem (h5 (by omega)))

/-- The result of `JumpTo` on a cursor that has a next character, by where the scan stops. -/
theorem CharIterator.JumpTo_of_hasNext (QuoteRune : rune → String) (cit : CharIterator)
    (tar : rune) (h : cit.i < cit.n) :
    cit.JumpTo QuoteRune tar =
      if (CharIterator.jumpLoop { cit with i := cit.i + 1 } tar).i = cit.n then
        (some ("cannot jump to " ++ QuoteRune tar), { cit with i := cit.n })
      else
        (none, { cit with
          i := (CharIterator.jumpLoop { cit with i := cit.i + 1 } tar).i + 1 }) := by
  have hh : cit.HasNext = true := by simp [CharIterator.HasNext, h]
  have he := CharIterator.jumpLoop_eq { cit with i := cit.i + 1 } tar
  have hn := (CharIterator.jumpLoop_spec { cit with i := cit.i + 1 } tar).2.1
  simp only at hn
  unfold CharIterator.JumpTo
  simp only [hh, Bool.not_true, Bool.false_eq_true, if_false, beq_iff_eq, hn]
  split
  · rename_i heq
    rw [he, heq]
  · rw [he]

/-- A fresh cursor satisfies the invariant. -/
theorem NewCharIterator_inv (str : String) : (NewCharIterator str).Inv := by
  refine ⟨rfl, le_refl _, ?_⟩
  simp only [NewCharIterator]
  omega

/-- The method `Next` keeps the invariant and the runes. -/
theorem CharIterator.Next_inv (cit : CharIterator) (h : cit.Inv) :
    (cit.Next).2.Inv ∧ (cit.Next).2.runes = cit.runes := by
  obtain ⟨hn, h0, hle⟩ := h
  unfold CharIterator.Next
  by_cases hh : cit.i < cit.n
  · have hb : cit.HasNext = true := by simp [CharIterator.HasNext, hh]
    simp only [hb, Bool.not_true, Bool.false_eq_true, if_false]
    refine ⟨⟨hn, ?_, ?_⟩, trivial⟩
    · simp only; omega
    · simp only; omega
  · have hb : cit.HasNext = false := by simp [CharIterator.HasNext, hh]
    simp only [hb, Bool.not_false, if_true]
    exact ⟨⟨hn, h0, hle⟩, trivial⟩

/-- The method `JumpTo` keeps the invariant and the runes; when it succeeds the position is
at least 1. -/
theorem CharIterator.JumpTo_inv (QuoteRune : rune → String) (cit : CharIterator) (tar : rune)
    (h : cit.Inv) :
    (cit.JumpTo QuoteRune tar).2.Inv ∧ (cit.JumpTo QuoteRune tar).2.runes = cit.runes ∧
    ((cit.JumpTo QuoteRune tar).1 = none → 1 ≤ (cit.JumpTo QuoteRune tar).2.i) := by
  obtain ⟨hn, h0, hle⟩ := h
  by_cases hh : cit.i < cit.n
  · rw [CharIterator.JumpTo_of_hasNext QuoteRune cit tar hh]
    obtain ⟨-, -, h3, h4, -, -⟩ := CharIterator.jumpLoop_spec { cit with i := cit.i + 1 } tar
    simp only at h3 h4
    have h4 := h4 (by omega)
    split
    · refine ⟨⟨hn, ?_, ?_⟩, rfl, ?_⟩
      · simp only; omega
      · simp only; omega
      · intro hc; exact Option.noConfusion hc
    · rename_i hne
      refine ⟨⟨hn, ?_, ?_⟩, rfl, ?_⟩
      · simp only; omega
      · simp only; omega
      · intro _; simp only; omega
  · have hb : cit.HasNext = false := by simp [CharIterator.HasNext, hh]
    unfold CharIterator.JumpTo
    simp only [hb, Bool.not_false, if_true]
    exact ⟨⟨hn, h0, hle⟩, trivial, fun hc => Option.noConfusion hc⟩

/-- The method `SkipUntil` keeps the invariant and the runes. -/
theorem CharIterator.SkipUntil_inv (QuoteRune : rune → String) (cit : CharIterator)
    (tar : rune) (h : cit.Inv) :
    (cit.SkipUntil QuoteRune tar).2.Inv ∧
    (cit.SkipUntil QuoteRune tar).2.runes = cit.runes := by
  obtain ⟨hi, hr, hpos⟩ := CharIterator.JumpTo_inv QuoteRune cit tar h
  unfold CharIterator.SkipUntil
  cases hj : cit.JumpTo QuoteRune tar with
  | mk err c =>
    rw [hj] at hi hr hpos
    simp only at hi hr hpos
    cases err with
    | some e => exact ⟨hi, hr⟩
    | none =>
      obtain ⟨hn, h0, hle⟩ := hi
      have := hpos rfl
      refine ⟨⟨hn, ?_, ?_⟩, hr⟩
      · simp only; omega
      · simp only; omega

/-- Every call keeps the invariant and the runes. -/
theorem CharIterator.apply_inv (QuoteRune : rune → String) (cit : CharIterator)
    (op : CursorOp) (h : cit.Inv) :
    (cit.apply QuoteRune op).Inv ∧ (cit.apply QuoteRune op).runes = cit.runes := by
  cases op with
  | next => exact CharIterator.Next_inv cit h
  | jumpTo tar =>
    exact ⟨(CharIterator.JumpTo_inv QuoteRune cit tar h).1,
      (CharIterator.JumpTo_inv QuoteRune cit tar h).2.1⟩
  | skipUntil tar => exact CharIterator.SkipUntil_inv QuoteRune cit tar h

/-- Every finite sequence of calls keeps the invariant and the runes. -/
theorem CharIterator.run_inv (QuoteRune : rune → String) (ops : List CursorOp) :
    ∀ cit : CharIterator, cit.Inv →
      (cit.run QuoteRune ops).Inv ∧ (cit.run QuoteRune ops).runes = cit.runes := by
  induction ops with
  | nil => intro cit h; exact ⟨h, rfl⟩
  | cons op ops ih =>
    intro cit h
    obtain ⟨h1, h2⟩ := CharIterator.apply_inv QuoteRune cit op h
    obtain ⟨h3, h4⟩ := ih (cit.apply QuoteRune op) h1
    exact ⟨h3, h4.trans h2⟩

/-- The field builder on a type token that carries both markers. -/
theorem parseField_slice_pointer (name B : Token) :
    parseField name ("[]*" ++ B) =
      { OrigFName := name, FName := name, FType := B, IsPointer := true, IsSlice := true,
        IsPrimitive := (mapIndex builtinTypeMapping B).2, IsMap := false,
        BackTickComment := "", SlashedComment := "" } := by
  have h1 : Token.StartsWith ("[]*" ++ B) Slice = true := by
    simp [Token.StartsWith, Slice, String.toList, String.data_append, List.isPrefixOf]
  have h2 : Token.sliceFrom ("[]*" ++ B) 2 = "*" ++ B := by
    simp [Token.sliceFrom, String.toList, String.data_append, String.ext_iff]
  have h3 : Token.StartsWith ("*" ++ B) Star = true := by
    simp [Token.StartsWith, Star, String.toList, String.data_append, List.isPrefixOf]
  have h4 : Token.sliceFrom ("*" ++ B) 1 = B := by
    simp [Token.sliceFrom, String.toList, String.data_append]
  unfold parseField
  simp only [h1, h2, h3, h4, if_true]
  cases (mapIndex builtinTypeMapping B).2 <;> simp

/-- The map index reports a key as found exactly when it is among the table's keys. -/
theorem mapIndex_found_iff (m : List (Token × String)) (k : Token) :
    (mapIndex m k).2 = true ↔ k ∈ m.map Prod.fst := by
  induction m with
  | nil => simp [mapIndex, List.lookup]
  | cons p m ih =>
    obtain ⟨a, b⟩ := p
    by_cases hk : k = a
    · subst hk
      simp [mapIndex, List.lookup]
    · have hb : (k == a) = false := by simpa using hk
      have hstep : mapIndex ((a, b) :: m) k = mapIndex m k := by
        simp [mapIndex, List.lookup, hb]
      rw [hstep, ih]
      simp [hk]

/-- The field builder sets `IsPrimitive` to the table's answer for the stored type name. -/
theorem parseField_isPrimitive (name t : Token) :
    (parseField name t).IsPrimitive =
      (mapIndex builtinTypeMapping (parseField name t).FType).2 := by
  unfold parseField
  simp only
  split <;> split <;> split <;> simp_all

/-- Joining a list of strings that starts with `a`. -/
theorem join_cons (a : String) (l : List String) :
    String.join (a :: l) = a ++ String.join l := by
  rw [String.join_eq, String.join_eq]
  apply String.ext
  simp [String.data_append]

/-- The state `FieldDesc.ProtobufVer` leaves the field in does not depend on the index or on
the name conversion. -/
theorem FieldDesc.ProtobufVer_snd (Camel2Snake : String → String) (f : FieldDesc)
    (idx : Int) : (f.ProtobufVer Camel2Snake idx).2 = f.rendered := by
  unfold FieldDesc.rendered FieldDesc.ProtobufVer
  rfl

/-- The loop of `StructDesc.ProtobufVer`, entered behind the fields `done` with every object
rewritten once per listing in `done`: it appends one line per field, numbered on from
`done.length + 1`, each rendered from its object as the earlier calls left it. -/
theorem StructDesc.protobufLoop_text (Camel2Snake : String → String) (heap : FieldHeap)
    (fs : List FieldPtr) :
    ∀ (done : List FieldPtr) (s : String),
      (StructDesc.protobufLoop Camel2Snake fs done.length s
          (fun q => Nat.iterate FieldDesc.rendered (done.count q) (heap q))).1 =
        s ++ String.join ((fs.enumFrom (done.length + 1)).map
          (fun ip => "    " ++
            ((Nat.iterate FieldDesc.rendered (((done ++ fs).take (ip.1 - 1)).count ip.2)
              (heap ip.2)).ProtobufVer Camel2Snake (ip.1 : Int)).1 ++ "\n")) := by
  induction fs with
  | nil =>
    intro done s
    simp [StructDesc.protobufLoop, String.join]
  | cons f fs ih =>
    intro done s
    have hsp : stringsRepeat Space 4 = "    " := by decide
    have hheap : Function.update
        (fun q => Nat.iterate FieldDesc.rendered (done.count q) (heap q)) f
        ((Nat.iterate FieldDesc.rendered (done.count f) (heap f)).ProtobufVer Camel2Snake
          ((done.length : Int) + 1)).2 =
        (fun q => Nat.iterate FieldDesc.rendered ((done ++ [f]).count q) (heap q)) := by
      funext q
      by_cases hq : q = f
      · subst hq
        simp [FieldDesc.ProtobufVer_snd, Function.iterate_succ_apply']
      · have hfq : ¬ f = q := fun h => hq h.symm
        simp [Function.update, hq, List.count_cons, hfq]
    have ih := ih (done ++ [f])
      (s ++ (stringsRepeat Space 4 ++
        ((Nat.iterate FieldDesc.rendered (done.count f) (heap f)).ProtobufVer Camel2Snake
          ((done.length : Int) + 1)).1 ++ NewLine))
    simp only [List.length_append, List.length_singleton] at ih
    simp only [StructDesc.protobufLoop, hheap]
    rw [ih]
    simp only [List.enumFrom_cons, List.map_cons, join_cons, hsp, NewLine, String.append_assoc,
      Nat.add_sub_cancel, List.take_left', Nat.cast_add, Nat.cast_one, List.append_assoc,
      List.singleton_append]

/-- The loop of `StructDesc.ProtobufVer` over distinct objects that are still as they were
before the call: each line is rendered from its object as it was. -/
theorem StructDesc.protobufLoop_text_nodup (Camel2Snake : String → String) (heap : FieldHeap)
    (fs : List FieldPtr) :
    ∀ (i : Nat) (s : String) (cur : FieldHeap), fs.Nodup → (∀ p ∈ fs, cur p = heap p) →
      (StructDesc.protobufLoop Camel2Snake fs i s cur).1 =
        s ++ String.join ((fs.enumFrom (i + 1)).map
          (fun ip => "    " ++ ((heap ip.2).ProtobufVer Camel2Snake (ip.1 : Int)).1 ++
            "\n")) := by
  induction fs with
  | nil =>
    intro i s cur _ _
    simp [StructDesc.protobufLoop, String.join]
  | cons f fs ih =>
    intro i s cur hnd hcur
    have hsp : stringsRepeat Space 4 = "    " := by decide
    obtain ⟨hnot, hnd2⟩ := List.nodup_cons.mp hnd
    have hf : cur f = heap f := hcur f (List.mem_cons_self _ _)
    have hcur2 : ∀ p ∈ fs,
        Function.update cur f ((cur f).ProtobufVer Camel2Snake ((i : Int) + 1)).2 p =
          heap p := by
      intro p hp
      have hpf : p ≠ f := fun h => hnot (h ▸ hp)
      rw [Function.update_noteq hpf]
      exact hcur p (List.mem_cons_of_mem _ hp)
    have ih := ih (i + 1)
      (s ++ (stringsRepeat Space 4 ++
        ((cur f).ProtobufVer Camel2Snake ((i : Int) + 1)).1 ++ NewLine))
      (Function.update cur f ((cur f).ProtobufVer Camel2Snake ((i : Int) + 1)).2) hnd2 hcur2
    simp only [StructDesc.protobufLoop]
    rw [ih]
    simp only [hf, List.enumFrom_cons, List.map_cons, join_cons, hsp, NewLine,
      String.append_assoc, Nat.cast_add, Nat.cast_one]

/-- The renderer on a struct that lists one `float32` object twice: the second line is
rendered from the object as the first call left it, with `float` rewritten to the empty type
name. -/
theorem StructDesc.ProtobufVer_shared_float_object :
    (StructDesc.ProtobufVer id { TName := "T", Fields := [0, 0], dependencies := [] }
        (fun _ => parseField "W" "float32")).1 =
      "message T\x7b\n    float W = 1;\n     W = 2;\n\x7d" ∧
    ((StructDesc.ProtobufVer id { TName := "T", Fields := [0, 0], dependencies := [] }
        (fun _ => parseField "W" "float32")).2 0).FType = "" := by
  decide

/-- A key reported as found is mapped to the value the index returns. -/
theorem mapIndex_lookup (m : List (Token × String)) (k : Token)
    (h : (mapIndex m k).2 = true) : m.lookup k = some (mapIndex m k).1 := by
  unfold mapIndex at h ⊢
  cases hl : m.lookup k with
  | none => rw [hl] at h; simp at h
  | some v => rfl

/-- The text `FieldDesc.ProtobufVer` returns, by the two flags of the field. -/
theorem FieldDesc.ProtobufVer_text (Camel2Snake : String → String) (f : FieldDesc)
    (idx : Int) :
    (f.ProtobufVer Camel2Snake idx).1 =
      (if f.IsSlice then "repeated " else "") ++
        ((if f.IsPrimitive then (mapIndex builtinTypeMapping f.FType).1 else f.FType) ++ " " ++
          Camel2Snake f.FName ++ " = " ++ toString idx ++ ";") := by
  unfold FieldDesc.ProtobufVer
  cases hp : f.IsPrimitive <;> cases hs : f.IsSlice <;> simp [Token.asString, hs]

/-! ## Facts about the token cursor and the loops of `Parse` -/

/-- Fetching from a stream that starts with a token other than the newline. -/
theorem TokenIterator.NextNonNewLine_cons (tk : Token) (rest : List Token)
    (h : tk ≠ NewLine) :
    TokenIterator.NextNonNewLine { rest := tk :: rest } = ((tk, none), { rest := rest }) := by
  have hb : (tk == NewLine) = false := by simpa using h
  simp [TokenIterator.NextNonNewLine, List.dropWhile_cons, hb]

/-- Fetching from the exhausted stream. -/
theorem TokenIterator.NextNonNewLine_nil :
    TokenIterator.NextNonNewLine { rest := [] } =
      (("", some errNoMoreTokens), { rest := [] }) := by
  simp [TokenIterator.NextNonNewLine]

/-- Fetching skips the newline tokens at the cursor. -/
theorem TokenIterator.NextNonNewLine_skip (nl rest : List Token)
    (h : ∀ x ∈ nl, x = NewLine) :
    TokenIterator.NextNonNewLine { rest := nl ++ rest } =
      TokenIterator.NextNonNewLine { rest := rest } := by
  induction nl with
  | nil => rfl
  | cons x nl ih =>
    have hx : x = NewLine := h x (List.mem_cons_self _ _)
    have ih := ih (fun y hy => h y (List.mem_cons_of_mem _ hy))
    subst hx
    simp only [TokenIterator.NextNonNewLine, List.cons_append, List.dropWhile_cons, beq_self_eq_true,
      if_true] at ih ⊢
    exact ih

/-- The outer loop stops on an exhausted cursor and returns the list built so far. -/
theorem Parse.typeLoop_exhausted (Quote : Token → String) (tk : Token) (err : Option String)
    (acc : Option (List StructDesc)) :
    Parse.typeLoop Quote { rest := [] } tk err acc = (acc, none) := by
  rw [Parse.typeLoop.eq_def]
  simp [TokenIterator.HasNext]

/-- The inner loop stops on the closing brace. -/
theorem Parse.fieldLoop_brace (it : TokenIterator) (err : Option String)
    (acc : List FieldDesc) :
    Parse.fieldLoop it RtCurlBrace err acc = .ok (acc, it) := by
  rw [Parse.fieldLoop.eq_def]
  simp

/-- The inner loop over the fields of a well-formed block, entered by the fetch of its init
statement: it collects `parseField` of every pair and stops behind the closing brace. -/
theorem Parse.fieldLoop_fields (fields : List (Token × Token)) (rest : List Token)
    (h : ∀ p ∈ fields, p.1 ≠ NewLine ∧ p.2 ≠ NewLine ∧ p.1 ≠ RtCurlBrace) :
    ∀ acc : List FieldDesc,
      Parse.fieldLoop
          (TokenIterator.NextNonNewLine
            { rest := fieldTokens fields ++ RtCurlBrace :: rest }).2
          (TokenIterator.NextNonNewLine
            { rest := fieldTokens fields ++ RtCurlBrace :: rest }).1.1
          (TokenIterator.NextNonNewLine
            { rest := fieldTokens fields ++ RtCurlBrace :: rest }).1.2 acc =
        .ok (acc ++ fields.map (fun p => parseField p.1 p.2), { rest := rest }) := by
  induction fields with
  | nil =>
    intro acc
    have hb : RtCurlBrace ≠ NewLine := by decide
    simp only [fieldTokens, List.flatMap_nil, List.nil_append,
      TokenIterator.NextNonNewLine_cons _ _ hb, Parse.fieldLoop_brace, List.map_nil,
      List.append_nil]
  | cons p fields ih =>
    intro acc
    obtain ⟨a, b⟩ := p
    obtain ⟨ha, hb, hab⟩ := h (a, b) (List.mem_cons_self _ _)
    simp only at ha hb hab
    have ih := ih (fun q hq => h q (List.mem_cons_of_mem _ hq)) (acc ++ [parseField a b])
    have htoks : fieldTokens ((a, b) :: fields) ++ RtCurlBrace :: rest =
        a :: b :: (fieldTokens fields ++ RtCurlBrace :: rest) := by
      simp [fieldTokens, List.flatMap_cons]
    rw [htoks, TokenIterator.NextNonNewLine_cons _ _ ha]
    simp only
    rw [Parse.fieldLoop.eq_def]
    have hne : (a != RtCurlBrace) = true := by simpa using hab
    simp only [TokenIterator.HasNext, List.isEmpty_cons, Bool.not_false, hne, Bool.and_self,
      if_true, TokenIterator.NextNonNewLine_cons _ _ hb]
    rw [ih]
    simp

/-- Appending a list of elements, one at a time, to a non-nil slice. -/
theorem foldl_goAppend_some {α : Type} (ds : List α) :
    ∀ l : List α, ds.foldl goAppend (some l) = some (l ++ ds) := by
  induction ds with
  | nil => intro l; simp
  | cons d ds ih => intro l; simp [goAppend, ih]

/-- Appending a list of elements, one at a time, to the nil slice. -/
theorem foldl_goAppend_none {α : Type} (ds : List α) :
    ds.foldl goAppend (none : Option (List α)) = if ds.isEmpty then none else some ds := by
  cases ds with
  | nil => rfl
  | cons d ds => simp [goAppend, foldl_goAppend_some]

/-- The outer loop over a concatenation of well-formed blocks, entered by the fetch of its
init statement: it appends one `StructDesc` per block, in order, and reports no error. -/
theorem Parse.typeLoop_blocks (Quote : Token → String) (blocks : List TypeBlock)
    (h : ∀ b ∈ blocks, b.WellFormed) :
    ∀ acc : Option (List StructDesc),
      Parse.typeLoop Quote
          (TokenIterator.NextNonNewLine { rest := blocks.flatMap TypeBlock.tokens }).2
          (TokenIterator.NextNonNewLine { rest := blocks.flatMap TypeBlock.tokens }).1.1
          (TokenIterator.NextNonNewLine { rest := blocks.flatMap TypeBlock.tokens }).1.2 acc =
        ((blocks.map TypeBlock.desc).foldl goAppend acc, none) := by
  induction blocks with
  | nil =>
    intro acc
    simp only [List.flatMap_nil, TokenIterator.NextNonNewLine_nil, Parse.typeLoop_exhausted,
      List.map_nil, List.foldl_nil]
  | cons b blocks ih =>
    intro acc
    obtain ⟨hN, hf⟩ := h b (List.mem_cons_self _ _)
    have ih := ih (fun c hc => h c (List.mem_cons_of_mem _ hc)) (goAppend acc b.desc)
    have htoks : (b :: blocks).flatMap TypeBlock.tokens =
        TypeToken :: b.N :: "struct" :: "\x7b" ::
          (fieldTokens b.fields ++ RtCurlBrace :: blocks.flatMap TypeBlock.tokens) := by
      simp [List.flatMap_cons, TypeBlock.tokens]
    have h1 : TypeToken ≠ NewLine := by decide
    have h2 : ("struct" : Token) ≠ NewLine := by decide
    have h3 : ("\x7b" : Token) ≠ NewLine := by decide
    rw [htoks, TokenIterator.NextNonNewLine_cons _ _ h1]
    simp only
    rw [Parse.typeLoop.eq_def]
    simp only [TokenIterator.HasNext, List.isEmpty_cons, Bool.not_false, if_true, bne_self_eq_false,
      Bool.false_eq_true, if_false, TokenIterator.NextNonNewLine_cons _ _ hN,
      TokenIterator.NextNonNewLine_cons _ _ h2, TokenIterator.NextNonNewLine_cons _ _ h3]
    split
    · rename_i e heq
      simp only [TokenIterator.NextNonNewLine_cons _ _ hN,
        TokenIterator.NextNonNewLine_cons _ _ h2, TokenIterator.NextNonNewLine_cons _ _ h3] at heq
      rw [Parse.fieldLoop_fields b.fields _ hf []] at heq
      exact Except.noConfusion heq
    · rename_i fdl it2 heq
      simp only [TokenIterator.NextNonNewLine_cons _ _ hN,
        TokenIterator.NextNonNewLine_cons _ _ h2, TokenIterator.NextNonNewLine_cons _ _ h3] at heq
      rw [Parse.fieldLoop_fields b.fields _ hf []] at heq
      injection heq with heq
      injection heq with hl hit
      subst hl hit
      simp only [List.nil_append, List.map_cons, List.foldl_cons]
      exact ih

/-- The outer loop fails on a token other than `type` while a token is left. -/
theorem Parse.typeLoop_unexpected (Quote : Token → String) (it : TokenIterator) (tk : Token)
    (acc : Option (List StructDesc)) (hit : it.rest ≠ []) (htk : tk ≠ TypeToken) :
    Parse.typeLoop Quote it tk none acc =
      (none, some ("expect 'type' keyword, but got " ++ Quote tk)) := by
  have hh : it.HasNext = true := by
    cases hr : it.rest with
    | nil => exact absurd hr hit
    | cons x xs => simp [TokenIterator.HasNext, hr]
  have hb : (tk != TypeToken) = true := by simpa using htk
  rw [Parse.typeLoop.eq_def]
  simp [hh, hb]

/-- Every value of the table except `float` is itself a key mapped to itself: the table sends
every key other than `float32` and `float64` to a fixed point. -/
theorem mapIndex_fixed_of_not_float (k : Token) (hk : k ∈ builtinTypeMapping.map Prod.fst)
    (h32 : k ≠ "float32") (h64 : k ≠ "float64") :
    (mapIndex builtinTypeMapping (mapIndex builtinTypeMapping k).1).1 =
      (mapIndex builtinTypeMapping k).1 := by
  simp only [builtinTypeMapping, List.map_cons, List.map_nil, List.mem_cons,
    List.mem_singleton, List.not_mem_nil, or_false] at hk
  rcases hk with h | h | h | h | h | h | h | h | h | h | h | h | h | h
  · exact absurd h h32
  · exact absurd h h64
  all_goals (subst h; decide)

/-- A second call of `FieldDesc.ProtobufVer` repeats the first on every field built by
`parseField` whose base type is not `float32` or `float64`. -/
theorem FieldDesc.ProtobufVer_twice_of_not_float (Camel2Snake : String → String)
    (name t : Token) (idx : Int)
    (h32 : (parseField name t).FType ≠ "float32")
    (h64 : (parseField name t).FType ≠ "float64") :
    (((parseField name t).ProtobufVer Camel2Snake idx).2).ProtobufVer Camel2Snake idx =
      (parseField name t).ProtobufVer Camel2Snake idx := by
  have hprim := parseField_isPrimitive name t
  generalize parseField name t = f at hprim h32 h64
  cases hp : f.IsPrimitive with
  | false => simp [FieldDesc.ProtobufVer, hp]
  | true =>
    have hk := (mapIndex_found_iff builtinTypeMapping f.FType).mp (by rw [← hprim, hp])
    have hfix := mapIndex_fixed_of_not_float f.FType hk h32 h64
    simp [FieldDesc.ProtobufVer, hp, hfix]

/-- Where the scan stops when `tar` occurs nowhere from the start of the scan on: at the end
of the input. -/
theorem CharIterator.jumpLoop_absent_from (cit : CharIterator) (tar : rune)
    (hle : cit.i ≤ cit.n) (hno : ∀ j, cit.i ≤ j → runeAt cit.runes j ≠ some tar) :
    (cit.jumpLoop tar).i = cit.n := by
  obtain ⟨-, -, h3, h4, h5, -⟩ := CharIterator.jumpLoop_spec cit tar
  have h := h4 hle
  by_contra hne
  exact hno _ h3 (h5 (by omega))

/-- The conversion `string(r)` of the rune of a character is that character's string. -/
theorem runeString_char (c : Char) : runeString (c.toNat : Int) = String.singleton c := by
  have hv : c.toNat.isValidChar := c.valid
  unfold runeString
  rw [if_pos ⟨Int.ofNat_nonneg _, by simpa using hv⟩]
  simp [Char.ofNat_toNat]

/-- The map index reports a key as found exactly when the lookup has a value. -/
theorem mapIndex_snd (m : List (Token × String)) (k : Token) :
    (mapIndex m k).2 = (m.lookup k).isSome := by
  unfold mapIndex
  cases m.lookup k <;> rfl

/-- A token that starts with `s` is `s` followed by the token sliced behind `s`. -/
theorem Token.startsWith_sliceFrom (t : Token) (s : String)
    (h : Token.StartsWith t s = true) : s ++ Token.sliceFrom t s.length = t := by
  unfold Token.StartsWith at h
  obtain ⟨r, hr⟩ := List.isPrefixOf_iff_prefix.mp h
  apply String.ext
  simp only [Token.sliceFrom, String.data_append, String.toList, String.length] at hr ⊢
  rw [← hr]
  simp

/-- The loop of `StructDesc.String` appends one line per field and leaves the fields as they
were. -/
theorem StructDesc.stringLoop_spec (Camel2Snake : String → String) (fs : List FieldDesc) :
    ∀ s : String,
      StructDesc.stringLoop Camel2Snake fs s =
        (s ++ String.join (fs.map (fun f => (f.asString Camel2Snake).1 ++ "\n")), fs) := by
  induction fs with
  | nil =>
    intro s
    simp [StructDesc.stringLoop, String.join]
  | cons f fs ih =>
    intro s
    simp only [StructDesc.stringLoop, ih, List.map_cons, join_cons, String.append_assoc]
    rfl

/-- The slash comment has a byte exactly when it is not the empty string. -/
theorem utf8ByteSize_pos_iff (s : String) : s.utf8ByteSize > 0 ↔ s ≠ "" := by
  obtain ⟨cs⟩ := s
  rw [String.utf8ByteSize_mk, gt_iff_lt, Nat.pos_iff_ne_zero, ne_eq, String.utf8Len_eq_zero]
  constructor
  · intro h hc
    exact h (congrArg String.data hc)
  · intro h hc
    exact h (by rw [hc])

/-- The loop of `StructDesc.GetField` fails exactly when no field has the name. -/
theorem StructDesc.getFieldLoop_none (fs : List FieldDesc) (fieldName : String) :
    (StructDesc.getFieldLoop fs fieldName).2 = some "no such field" ↔
      ∀ f ∈ fs, f.FName ≠ fieldName := by
  induction fs with
  | nil => simp [StructDesc.getFieldLoop]
  | cons f fs ih =>
    by_cases hf : f.FName = fieldName
    · simp [StructDesc.getFieldLoop, Token.asString, hf]
    · have hb : (f.FName == fieldName) = false := by simpa using hf
      simp [StructDesc.getFieldLoop, Token.asString, hb, ih, hf]

/-- The loop of `StructDesc.GetField` is the search for the first field with the name. -/
theorem StructDesc.getFieldLoop_eq (fs : List FieldDesc) (fieldName : String) :
    StructDesc.getFieldLoop fs fieldName =
      match fs.find? (fun g => g.FName == fieldName) with
      | some f => (some f, none)
      | none => (none, some "no such field") := by
  induction fs with
  | nil => rfl
  | cons f fs ih =>
    by_cases hf : f.FName = fieldName
    · simp [StructDesc.getFieldLoop, Token.asString, hf]
    · have hb : (f.FName == fieldName) = false := by simpa using hf
      simp [StructDesc.getFieldLoop, Token.asString, hb, ih, List.find?_cons]

/-- A fetch never adds a token, and consumes at least one when a token is left. -/
theorem TokenIterator.NextNonNewLine_length (c : TokenIterator) :
    c.NextNonNewLine.2.rest.length ≤ c.rest.length ∧
    (c.HasNext = true → c.NextNonNewLine.2.rest.length < c.rest.length) := by
  have hs := (List.dropWhile_suffix (l := c.rest) (fun tk => tk == NewLine)).length_le
  have hh : c.HasNext = true → c.rest ≠ [] := by
    intro h hc
    simp [TokenIterator.HasNext, hc] at h
  unfold TokenIterator.NextNonNewLine
  split
  · exact ⟨Nat.zero_le _, fun h => List.length_pos.mpr (hh h)⟩
  · rename_i tk rest heq
    rw [heq] at hs
    simp only [List.length_cons] at hs
    show rest.length ≤ c.rest.length ∧ (c.HasNext = true → rest.length < c.rest.length)
    exact ⟨by omega, fun _ => by omega⟩

/-- A cursor with no token left has no next token. -/
theorem TokenIterator.HasNext_of_length_zero (c : TokenIterator) (h : c.rest.length = 0) :
    c.HasNext = false := by
  have hr : c.rest = [] := List.length_eq_zero.mp h
  simp [TokenIterator.HasNext, hr]

/-- The inner loop never adds a token to the stream. -/
theorem Parse.fieldLoop_length (c : TokenIterator) (fn : Token) (e : Option String)
    (l : List FieldDesc) :
    ∀ (l2 : List FieldDesc) (c2 : TokenIterator),
      Parse.fieldLoop c fn e l = .ok (l2, c2) → c2.rest.length ≤ c.rest.length := by
  induction c, fn, e, l using Parse.fieldLoop.induct with
  | case1 c fn l hcond e =>
    intro l2 c2 h
    rw [Parse.fieldLoop.eq_def, if_pos hcond] at h
    exact Except.noConfusion h
  | case2 c fn l hcond r1 e he =>
    intro l2 c2 h
    rw [Parse.fieldLoop.eq_def, if_pos hcond] at h
    simp only [r1] at he
    simp only [he] at h
    exact Except.noConfusion h
  | case3 c fn l hcond r1 he _ r2 ih =>
    intro l2 c2 h
    rw [Parse.fieldLoop.eq_def, if_pos hcond] at h
    simp only [r1] at he
    simp only [he] at h
    have := ih l2 c2 h
    have h1 := (TokenIterator.NextNonNewLine_length c).1
    have h2 := (TokenIterator.NextNonNewLine_length c.NextNonNewLine.2).1
    simp only [r2, r1] at this
    omega
  | case4 c fn e l hcond =>
    intro l2 c2 h
    rw [Parse.fieldLoop.eq_def, if_neg hcond] at h
    injection h with h
    injection h with _ h
    subst h
    exact le_refl _

/-- A budget of as many iterations as tokens are left is enough for the inner loop. -/
theorem Parse.fieldLoopN_eq (fuel : Nat) :
    ∀ (it : TokenIterator) (fn : Token) (err : Option String) (l : List FieldDesc),
      it.rest.length ≤ fuel →
        Parse.fieldLoopN fuel it fn err l = some (Parse.fieldLoop it fn err l) := by
  induction fuel with
  | zero =>
    intro it fn err l h
    have hh := TokenIterator.HasNext_of_length_zero it (by omega)
    rw [Parse.fieldLoop.eq_def]
    simp [Parse.fieldLoopN, hh]
  | succ fuel ih =>
    intro it fn err l h
    rw [Parse.fieldLoop.eq_def]
    unfold Parse.fieldLoopN
    by_cases hc : (it.HasNext && fn != RtCurlBrace) = true
    · have hn : it.HasNext = true := by
        simp only [Bool.and_eq_true] at hc
        exact hc.1
      have h1 := (TokenIterator.NextNonNewLine_length it).2 hn
      have h2 := (TokenIterator.NextNonNewLine_length it.NextNonNewLine.2).1
      simp only [hc, if_true]
      cases err with
      | some e => rfl
      | none =>
        simp only
        cases hr : it.NextNonNewLine.1.2 with
        | some e => rfl
        | none =>
          simp only
          exact ih _ _ _ _ (by omega)
    · simp only [hc, if_false]
      rfl

/-- A budget of as many iterations as tokens are left is enough for the outer loop. -/
theorem Parse.typeLoopN_eq (Quote : Token → String) (fuel : Nat) :
    ∀ (it : TokenIterator) (tk : Token) (err : Option String)
      (acc : Option (List StructDesc)),
      it.rest.length ≤ fuel →
        Parse.typeLoopN Quote fuel it tk err acc =
          some (Parse.typeLoop Quote it tk err acc) := by
  induction fuel with
  | zero =>
    intro it tk err acc h
    have hh := TokenIterator.HasNext_of_length_zero it (by omega)
    rw [Parse.typeLoop.eq_def]
    simp [Parse.typeLoopN, hh]
  | succ fuel ih =>
    intro it tk err acc h
    rw [Parse.typeLoop.eq_def]
    unfold Parse.typeLoopN
    by_cases hn : it.HasNext = true
    · have h1 := (TokenIterator.NextNonNewLine_length it).2 hn
      have h2 := (TokenIterator.NextNonNewLine_length it.NextNonNewLine.2).1
      have h3 := (TokenIterator.NextNonNewLine_length
        it.NextNonNewLine.2.NextNonNewLine.2).1
      have h4 := (TokenIterator.NextNonNewLine_length
        it.NextNonNewLine.2.NextNonNewLine.2.NextNonNewLine.2).1
      simp only [hn, if_true]
      cases err with
      | some e => rfl
      | none =>
        simp only
        by_cases hty : (tk != TypeToken) = true
        · simp only [hty, if_true]
        · simp only [hty, if_false]
          rw [Parse.fieldLoopN_eq fuel _ _ _ _ (by omega)]
          simp only [Bool.false_eq_true, if_false]
          split
          · rename_i heq
            exact Option.noConfusion heq
          · rename_i e heq
            injection heq with heq
            split
            · rename_i e2 heq2
              rw [heq] at heq2
              injection heq2 with heq2
              rw [heq2]
            · rename_i fdl it2 heq2
              rw [heq] at heq2
              exact Except.noConfusion heq2
          · rename_i fdl it2 heq
            injection heq with heq
            have h5 := Parse.fieldLoop_length _ _ _ _ _ _ heq
            have h6 := (TokenIterator.NextNonNewLine_length it2).1
            split
            · rename_i e2 heq2
              rw [heq] at heq2
              exact Except.noConfusion heq2
            · rename_i fdl2 it3 heq2
              rw [heq] at heq2
              injection heq2 with heq2
              injection heq2 with hl hit
              subst hl hit
              exact ih _ _ _ _ (by omega)
    · simp only [hn, if_false]
      rfl

/-- The inner loop over the fields of a block whose closing brace is missing at the end of
the stream: it collects `parseField` of every pair and stops on the exhausted stream. -/
theorem Parse.fieldLoop_fields_open (fields : List (Token × Token))
    (h : ∀ p ∈ fields, p.1 ≠ NewLine ∧ p.2 ≠ NewLine ∧ p.1 ≠ RtCurlBrace) :
    ∀ acc : List FieldDesc,
      Parse.fieldLoop
          (TokenIterator.NextNonNewLine { rest := fieldTokens fields }).2
          (TokenIterator.NextNonNewLine { rest := fieldTokens fields }).1.1
          (TokenIterator.NextNonNewLine { rest := fieldTokens fields }).1.2 acc =
        .ok (acc ++ fields.map (fun p => parseField p.1 p.2), { rest := [] }) := by
  induction fields with
  | nil =>
    intro acc
    simp only [fieldTokens, List.flatMap_nil, TokenIterator.NextNonNewLine_nil, List.map_nil,
      List.append_nil]
    rw [Parse.fieldLoop.eq_def]
    simp [TokenIterator.HasNext]
  | cons p fields ih =>
    intro acc
    obtain ⟨a, b⟩ := p
    obtain ⟨ha, hb, hab⟩ := h (a, b) (List.mem_cons_self _ _)
    simp only at ha hb hab
    have ih := ih (fun q hq => h q (List.mem_cons_of_mem _ hq)) (acc ++ [parseField a b])
    have htoks : fieldTokens ((a, b) :: fields) = a :: b :: fieldTokens fields := by
      simp [fieldTokens, List.flatMap_cons]
    rw [htoks, TokenIterator.NextNonNewLine_cons _ _ ha]
    simp only
    rw [Parse.fieldLoop.eq_def]
    have hne : (a != RtCurlBrace) = true := by simpa using hab
    simp only [TokenIterator.HasNext, List.isEmpty_cons, Bool.not_false, hne, Bool.and_self,
      if_true, TokenIterator.NextNonNewLine_cons _ _ hb]
    rw [ih]
    simp

/-- The outer loop over well-formed blocks followed by more tokens: it appends one
`StructDesc` per block and goes on with the fetch from the tokens behind them. -/
theorem Parse.typeLoop_blocks_then (Quote : Token → String) (blocks : List TypeBlock)
    (tail : List Token) (h : ∀ b ∈ blocks, b.WellFormed) :
    ∀ acc : Option (List StructDesc),
      Parse.typeLoop Quote
          (TokenIterator.NextNonNewLine
            { rest := blocks.flatMap TypeBlock.tokens ++ tail }).2
          (TokenIterator.NextNonNewLine
            { rest := blocks.flatMap TypeBlock.tokens ++ tail }).1.1
          (TokenIterator.NextNonNewLine
            { rest := blocks.flatMap TypeBlock.tokens ++ tail }).1.2 acc =
        Parse.typeLoop Quote
          (TokenIterator.NextNonNewLine { rest := tail }).2
          (TokenIterator.NextNonNewLine { rest := tail }).1.1
          (TokenIterator.NextNonNewLine { rest := tail }).1.2
          ((blocks.map TypeBlock.desc).foldl goAppend acc) := by
  induction blocks with
  | nil =>
    intro acc
    simp only [List.flatMap_nil, List.nil_append, List.map_nil, List.foldl_nil]
  | cons b blocks ih =>
    intro acc
    obtain ⟨hN, hf⟩ := h b (List.mem_cons_self _ _)
    have ih := ih (fun c hc => h c (List.mem_cons_of_mem _ hc)) (goAppend acc b.desc)
    have htoks : (b :: blocks).flatMap TypeBlock.tokens ++ tail =
        TypeToken :: b.N :: "struct" :: "\x7b" ::
          (fieldTokens b.fields ++
            RtCurlBrace :: (blocks.flatMap TypeBlock.tokens ++ tail)) := by
      simp [List.flatMap_cons, TypeBlock.tokens]
    have h1 : TypeToken ≠ NewLine := by decide
    have h2 : ("struct" : Token) ≠ NewLine := by decide
    have h3 : ("\x7b" : Token) ≠ NewLine := by decide
    rw [htoks, TokenIterator.NextNonNewLine_cons _ _ h1]
    simp only
    rw [Parse.typeLoop.eq_def]
    simp only [TokenIterator.HasNext, List.isEmpty_cons, Bool.not_false, if_true, bne_self_eq_false,
      Bool.false_eq_true, if_false, TokenIterator.NextNonNewLine_cons _ _ hN,
      TokenIterator.NextNonNewLine_cons _ _ h2, TokenIterator.NextNonNewLine_cons _ _ h3]
    split
    · rename_i e heq
      simp only [TokenIterator.NextNonNewLine_cons _ _ hN,
        TokenIterator.NextNonNewLine_cons _ _ h2, TokenIterator.NextNonNewLine_cons _ _ h3] at heq
      rw [Parse.fieldLoop_fields b.fields _ hf []] at heq
      exact Except.noConfusion heq
    · rename_i fdl it2 heq
      simp only [TokenIterator.NextNonNewLine_cons _ _ hN,
        TokenIterator.NextNonNewLine_cons _ _ h2, TokenIterator.NextNonNewLine_cons _ _ h3] at heq
      rw [Parse.fieldLoop_fields b.fields _ hf []] at heq
      injection heq with heq
      injection heq with hl hit
      subst hl hit
      simp only [List.nil_append, List.map_cons, List.foldl_cons]
      exact ih

/-- The outer loop over one well-formed block whose closing brace is missing at the end of
the stream: it appends the block's `StructDesc` and reports no error. -/
theorem Parse.typeLoop_open_block (Quote : Token → String) (b : TypeBlock)
    (hb : b.WellFormed) (acc : Option (List StructDesc)) :
    Parse.typeLoop Quote
        (TokenIterator.NextNonNewLine { rest := b.openTokens }).2
        (TokenIterator.NextNonNewLine { rest := b.openTokens }).1.1
        (TokenIterator.NextNonNewLine { rest := b.openTokens }).1.2 acc =
      (goAppend acc b.desc, none) := by
  obtain ⟨hN, hf⟩ := hb
  have htoks : b.openTokens =
      TypeToken :: b.N :: "struct" :: "\x7b" :: fieldTokens b.fields := by
    simp [TypeBlock.openTokens]
  have h1 : TypeToken ≠ NewLine := by decide
  have h2 : ("struct" : Token) ≠ NewLine := by decide
  have h3 : ("\x7b" : Token) ≠ NewLine := by decide
  rw [htoks, TokenIterator.NextNonNewLine_cons _ _ h1]
  simp only
  rw [Parse.typeLoop.eq_def]
  simp only [TokenIterator.HasNext, List.isEmpty_cons, Bool.not_false, if_true, bne_self_eq_false,
    Bool.false_eq_true, if_false, TokenIterator.NextNonNewLine_cons _ _ hN,
    TokenIterator.NextNonNewLine_cons _ _ h2, TokenIterator.NextNonNewLine_cons _ _ h3]
  split
  · rename_i e heq
    simp only [TokenIterator.NextNonNewLine_cons _ _ hN,
      TokenIterator.NextNonNewLine_cons _ _ h2, TokenIterator.NextNonNewLine_cons _ _ h3] at heq
    rw [Parse.fieldLoop_fields_open b.fields hf []] at heq
    exact Except.noConfusion heq
  · rename_i fdl it2 heq
    simp only [TokenIterator.NextNonNewLine_cons _ _ hN,
      TokenIterator.NextNonNewLine_cons _ _ h2, TokenIterator.NextNonNewLine_cons _ _ h3] at heq
    rw [Parse.fieldLoop_fields_open b.fields hf []] at heq
    injection heq with heq
    injection heq with hl hit
    subst hl hit
    simp only [List.nil_append, TokenIterator.NextNonNewLine_nil, Parse.typeLoop_exhausted]
    rfl

/-- The flags and the stored type of the field builder's result, by the two tests on the
type token. -/
theorem parseField_parts (name t : Token) :
    (parseField name t).FName = name ∧ (parseField name t).OrigFName = name ∧
    (parseField name t).IsSlice = Token.StartsWith t Slice ∧
    (parseField name t).IsPointer =
      Token.StartsWith (if Token.StartsWith t Slice then Token.sliceFrom t 2 else t) Star ∧
    (parseField name t).FType =
      (if Token.StartsWith (if Token.StartsWith t Slice then Token.sliceFrom t 2 else t) Star
        then Token.sliceFrom (if Token.StartsWith t Slice then Token.sliceFrom t 2 else t) 1
        else (if Token.StartsWith t Slice then Token.sliceFrom t 2 else t)) := by
  unfold parseField
  simp only
  split <;> split <;> split <;> simp_all

/-! ## The claims -/

/-- C1: for a token stream that is the concatenation of well-formed type blocks
`type N struct { (fieldName fieldType)* }` (no newline token, no field name equal to the
closing brace), `Parse` reports no error and returns one `StructDesc` per block, in source
order, with the block's `N` as `TName` and `parseField` of the block's own pairs, in
declaration order, as `Fields` (for no block at all the list is the nil slice). -/
theorem C1_parse_type_blocks (Quote : Token → String) (blocks : List TypeBlock)
    (h : ∀ b ∈ blocks, b.WellFormed) :
    Parse Quote (blocks.flatMap TypeBlock.tokens) =
      (if blocks.isEmpty then none else some (blocks.map TypeBlock.desc), none) := by
  unfold Parse NewTokenIterator
  simp only
  rw [Parse.typeLoop_blocks Quote blocks h none, foldl_goAppend_none]
  cases blocks <;> simp

/-- C1 at `type Pet struct { Name string Age int } type Tag struct { }`: two descriptions,
`Pet` with its two fields and `Tag` with none. -/
theorem C1_parse_type_blocks_witness :
    Parse id
        ["type", "Pet", "struct", "\x7b", "Name", "string", "Age", "int", "\x7d",
          "type", "Tag", "struct", "\x7b", "\x7d"] =
      (some [{ TName := "Pet",
               Fields := [parseField "Name" "string", parseField "Age" "int"],
               dependencies := [] },
             { TName := "Tag", Fields := [], dependencies := [] }], none) :=
  C1_parse_type_blocks id
    [{ N := "Pet", fields := [("Name", "string"), ("Age", "int")] },
      { N := "Tag", fields := [] }]
    (by decide)

/-- C2, as stated, fails on the one-token stream `foo`: the loop condition `it.HasNext()` is
tested after the token is fetched, the stream is then exhausted, the body never runs, and
`Parse` returns the nil list with no error. -/
theorem C2_lone_token_is_accepted :
    ("foo" : Token) ≠ NewLine ∧ ("foo" : Token) ≠ TypeToken ∧
    Parse id ["foo"] = (none, none) := by
  refine ⟨by decide, by decide, ?_⟩
  unfold Parse NewTokenIterator
  simp only
  rw [TokenIterator.NextNonNewLine_cons _ _ (by decide)]
  exact Parse.typeLoop_exhausted id "foo" none none

/-- C2, amended: for a token stream whose first non-newline token is not the `type` keyword
and is followed by at least one more token, `Parse` fails with
"expect 'type' keyword, but got " and the quoted token, and returns the nil list. -/
theorem C2_unexpected_first_token (Quote : Token → String) (nl : List Token) (tk : Token)
    (more : List Token) (hnl : ∀ x ∈ nl, x = NewLine) (htk : tk ≠ NewLine)
    (hty : tk ≠ TypeToken) (hmore : more ≠ []) :
    Parse Quote (nl ++ tk :: more) =
      (none, some ("expect 'type' keyword, but got " ++ Quote tk)) := by
  unfold Parse NewTokenIterator
  simp only
  rw [TokenIterator.NextNonNewLine_skip nl _ hnl, TokenIterator.NextNonNewLine_cons _ _ htk]
  exact Parse.typeLoop_unexpected Quote { rest := more } tk none hmore hty

/-- C2 (amended) at the stream newline, `func`, `Pet`. -/
theorem C2_unexpected_first_token_witness :
    Parse id ["\n", "func", "Pet"] =
      (none, some ("expect 'type' keyword, but got " ++ "func")) :=
  C2_unexpected_first_token id ["\n"] "func" ["Pet"] (by decide) (by decide) (by decide)
    (by decide)

/-- C3: on a cursor at position `p < n`, if `k` is the smallest index greater than `p` at which
the input holds `tar`, then `JumpTo(tar)` succeeds and leaves the position at `k + 1`, and
`SkipUntil(tar)` from the same state succeeds and leaves the position at `k`. -/
theorem C3_jump_and_skip_to_first_match (QuoteRune : rune → String) (cit : CharIterator)
    (tar : rune) (k : Int)
    (hn : cit.n = (cit.runes.length : Int)) (_h0 : 0 ≤ cit.i) (hp : cit.i < cit.n)
    (hk : cit.i < k) (hat : runeAt cit.runes k = some tar)
    (hmin : ∀ j, cit.i < j → j < k → runeAt cit.runes j ≠ some tar) :
    cit.JumpTo QuoteRune tar = (none, { cit with i := k + 1 }) ∧
    cit.SkipUntil QuoteRune tar = (none, { cit with i := k }) := by
  have hkn := (runeAt_some_bounds hat).2
  have hstop : (CharIterator.jumpLoop { cit with i := cit.i + 1 } tar).i = k :=
    CharIterator.jumpLoop_found { cit with i := cit.i + 1 } tar k hn (by simp only; omega) hat
      (fun j hj hjk => hmin j (by simp only at hj; omega) hjk)
  have hj : cit.JumpTo QuoteRune tar = (none, { cit with i := k + 1 }) := by
    rw [CharIterator.JumpTo_of_hasNext QuoteRune cit tar hp, hstop, if_neg (by omega)]
  refine ⟨hj, ?_⟩
  unfold CharIterator.SkipUntil
  rw [hj]
  simp only [Int.add_sub_cancel]

/-- C3 at the cursor over "a,b,c" at position 1 with target ',': the first ',' after
position 1 is at index 3. -/
theorem C3_jump_and_skip_to_first_match_witness :
    ({ i := 1, runes := toRunes "a,b,c", n := 5 } : CharIterator).JumpTo
        (fun _ => "','") 44 = (none, { i := 4, runes := toRunes "a,b,c", n := 5 }) ∧
    ({ i := 1, runes := toRunes "a,b,c", n := 5 } : CharIterator).SkipUntil
        (fun _ => "','") 44 = (none, { i := 3, runes := toRunes "a,b,c", n := 5 }) :=
  C3_jump_and_skip_to_first_match (fun _ => "','")
    { i := 1, runes := toRunes "a,b,c", n := 5 } 44 3
    (by decide) (by decide) (by decide) (by decide) (by decide)
    (fun j h1 h2 => by
      have hj : j = 2 := by simp only at h1; omega
      subst hj
      decide)

/-- C4, as stated, fails on the empty input: the cursor is exhausted from the start, and
`JumpTo` and `SkipUntil` report "no more character", not "cannot jump to ...". -/
theorem C4_empty_input_reports_end_of_input :
    (44 : rune) ∉ (NewCharIterator "").runes ∧
    (NewCharIterator "").JumpTo (fun _ => "','") 44 =
      (some "no more character", NewCharIterator "") ∧
    (NewCharIterator "").SkipUntil (fun _ => "','") 44 =
      (some "no more character", NewCharIterator "") ∧
    ((NewCharIterator "").JumpTo (fun _ => "','") 44).1 ≠ some ("cannot jump to " ++ "','") ∧
    ((NewCharIterator "").SkipUntil (fun _ => "','") 44).1 ≠
      some ("cannot jump to " ++ "','") := by
  refine ⟨by decide, by decide, by decide, by decide, by decide⟩

/-- C4, amended: over an input in which `tar` does not occur, on a cursor that still has a
character (`i < n`), `JumpTo(tar)` and `SkipUntil(tar)` both fail with
"cannot jump to <tar>" and leave the position at `n`; on an exhausted cursor (`i = n`) both
fail with "no more character" and leave the cursor as it was, still exhausted. -/
theorem C4_absent_target_fails (QuoteRune : rune → String) (cit : CharIterator) (tar : rune)
    (_hn : cit.n = (cit.runes.length : Int)) (_h0 : 0 ≤ cit.i) (hno : tar ∉ cit.runes) :
    (cit.i < cit.n →
      cit.JumpTo QuoteRune tar =
        (some ("cannot jump to " ++ QuoteRune tar), { cit with i := cit.n }) ∧
      cit.SkipUntil QuoteRune tar =
        (some ("cannot jump to " ++ QuoteRune tar), { cit with i := cit.n })) ∧
    (cit.i = cit.n →
      cit.JumpTo QuoteRune tar = (some "no more character", cit) ∧
      cit.SkipUntil QuoteRune tar = (some "no more character", cit)) := by
  constructor
  · intro hp
    have hstop : (CharIterator.jumpLoop { cit with i := cit.i + 1 } tar).i = cit.n :=
      CharIterator.jumpLoop_absent { cit with i := cit.i + 1 } tar (by simp only; omega) hno
    have hj : cit.JumpTo QuoteRune tar =
        (some ("cannot jump to " ++ QuoteRune tar), { cit with i := cit.n }) := by
      rw [CharIterator.JumpTo_of_hasNext QuoteRune cit tar hp, if_pos hstop]
    refine ⟨hj, ?_⟩
    unfold CharIterator.SkipUntil
    rw [hj]
  · intro he
    have hh : cit.HasNext = false := by simp [CharIterator.HasNext, he]
    have hj : cit.JumpTo QuoteRune tar = (some "no more character", cit) := by
      unfold CharIterator.JumpTo
      simp [hh]
    refine ⟨hj, ?_⟩
    unfold CharIterator.SkipUntil
    rw [hj]

/-- C4 (amended) at the cursor over "abc" at position 1 with target ','. -/
theorem C4_absent_target_fails_witness :
    ({ i := 1, runes := toRunes "abc", n := 3 } : CharIterator).JumpTo
        (fun _ => "','") 44 =
      (some ("cannot jump to " ++ "','"), { i := 3, runes := toRunes "abc", n := 3 }) ∧
    ({ i := 1, runes := toRunes "abc", n := 3 } : CharIterator).SkipUntil
        (fun _ => "','") 44 =
      (some ("cannot jump to " ++ "','"), { i := 3, runes := toRunes "abc", n := 3 }) :=
  (C4_absent_target_fails (fun _ => "','") { i := 1, runes := toRunes "abc", n := 3 } 44
    (by decide) (by decide) (by decide)).1 (by decide)

/-- C5: for a cursor created by `NewCharIterator` and after any finite sequence of `Next`,
`JumpTo` and `SkipUntil` calls, succeeding or failing, the position satisfies
`0 ≤ i ≤ n` with `n` the number of runes of the input, and `HasNext` is false exactly when
`i = n`. -/
theorem C5_cursor_position_invariant (QuoteRune : rune → String) (str : String)
    (ops : List CursorOp) :
    0 ≤ ((NewCharIterator str).run QuoteRune ops).i ∧
    ((NewCharIterator str).run QuoteRune ops).i ≤ ((NewCharIterator str).run QuoteRune ops).n ∧
    ((NewCharIterator str).run QuoteRune ops).n = ((toRunes str).length : Int) ∧
    (((NewCharIterator str).run QuoteRune ops).HasNext = false ↔
      ((NewCharIterator str).run QuoteRune ops).i =
        ((NewCharIterator str).run QuoteRune ops).n) := by
  obtain ⟨⟨hn, h0, hle⟩, hr⟩ :=
    CharIterator.run_inv QuoteRune ops (NewCharIterator str) (NewCharIterator_inv str)
  refine ⟨h0, hle, ?_, ?_⟩
  · rw [hn, hr]; rfl
  · simp only [CharIterator.HasNext, decide_eq_false_iff_not, not_lt]
    omega

/-- C6: for every field name and base type name `B`, `parseField(name, "[]*" ++ B)` has
`IsSlice = true`, `IsPointer = true` and `FType = B`, and `IsPrimitive = false` whenever `B`
is not a key of the type-mapping table. -/
theorem C6_slice_of_pointer (name B : Token) :
    (parseField name ("[]*" ++ B)).IsSlice = true ∧
    (parseField name ("[]*" ++ B)).IsPointer = true ∧
    (parseField name ("[]*" ++ B)).FType = B ∧
    (B ∉ builtinTypeMapping.map Prod.fst →
      (parseField name ("[]*" ++ B)).IsPrimitive = false) := by
  rw [parseField_slice_pointer]
  refine ⟨rfl, rfl, rfl, ?_⟩
  intro hB
  have h := (mapIndex_found_iff builtinTypeMapping B).not.mpr hB
  simpa using h

/-- C6 at the field `Owner []*Foo`. -/
theorem C6_slice_of_pointer_witness :
    "Foo" ∉ builtinTypeMapping.map Prod.fst ∧
    (parseField "Owner" "[]*Foo").IsSlice = true ∧
    (parseField "Owner" "[]*Foo").IsPointer = true ∧
    (parseField "Owner" "[]*Foo").FType = "Foo" ∧
    (parseField "Owner" "[]*Foo").IsPrimitive = false :=
  ⟨by decide, (C6_slice_of_pointer "Owner" "Foo").1, (C6_slice_of_pointer "Owner" "Foo").2.1,
    (C6_slice_of_pointer "Owner" "Foo").2.2.1,
    (C6_slice_of_pointer "Owner" "Foo").2.2.2 (by decide)⟩

/-- C7: the `FieldDesc` returned by `parseField` has `IsPrimitive = true` if and only if its
stored `FType` is a key of the type-mapping table; and for every key `t` of the table,
`parseField(name, t)` has `IsPrimitive = true`, `FType = t`, `IsSlice = false` and
`IsPointer = false`. -/
theorem C7_primitive_iff_table_key (name t : Token) :
    ((parseField name t).IsPrimitive = true ↔
      (parseField name t).FType ∈ builtinTypeMapping.map Prod.fst) ∧
    (t ∈ builtinTypeMapping.map Prod.fst →
      (parseField name t).IsPrimitive = true ∧ (parseField name t).FType = t ∧
      (parseField name t).IsSlice = false ∧ (parseField name t).IsPointer = false) := by
  constructor
  · rw [parseField_isPrimitive, mapIndex_found_iff]
  · intro ht
    simp only [builtinTypeMapping, List.map_cons, List.map_nil, List.mem_cons,
      List.mem_singleton, List.not_mem_nil, or_false] at ht
    rcases ht with h | h | h | h | h | h | h | h | h | h | h | h | h | h <;>
      (subst h; exact ⟨rfl, rfl, rfl, rfl⟩)

/-- C7 at the field `Age int`. -/
theorem C7_primitive_iff_table_key_witness :
    (parseField "Age" "int").IsPrimitive = true ∧ (parseField "Age" "int").FType = "int" ∧
    (parseField "Age" "int").IsSlice = false ∧ (parseField "Age" "int").IsPointer = false :=
  (C7_primitive_iff_table_key "Age" "int").2 (by decide)

/-- C8: `StructDesc.ProtobufVer` returns `message <TName>{` and a newline, then one line per
field in declaration order, the line of the field at 1-based place `i` being four blanks, the
text of that field's `ProtobufVer(i)` and a newline, then `}`; the numbers used are exactly
`1..N`. The call on the field at place `i` reads its object as the earlier calls left it,
rewritten once per earlier listing of the same object; where the struct lists distinct
objects, that is the object as it was before the rendering. -/
theorem C8_message_lines_numbered (Camel2Snake : String → String) (t : StructDescMem)
    (heap : FieldHeap) :
    (StructDesc.ProtobufVer Camel2Snake t heap).1 =
      "message " ++ t.TName ++ "\x7b\n" ++
        String.join ((t.Fields.enumFrom 1).map
          (fun ip => "    " ++
            ((Nat.iterate FieldDesc.rendered ((t.Fields.take (ip.1 - 1)).count ip.2)
              (heap ip.2)).ProtobufVer Camel2Snake (ip.1 : Int)).1 ++ "\n")) ++
        "\x7d" ∧
    (t.Fields.Nodup →
      (StructDesc.ProtobufVer Camel2Snake t heap).1 =
        "message " ++ t.TName ++ "\x7b\n" ++
          String.join (((t.read heap).Fields.enumFrom 1).map
            (fun p => "    " ++ (p.2.ProtobufVer Camel2Snake (p.1 : Int)).1 ++ "\n")) ++
          "\x7d") ∧
    (t.Fields.enumFrom 1).map Prod.fst = List.range' 1 t.Fields.length ∧
    (t.Fields.enumFrom 1).map Prod.snd = t.Fields := by
  refine ⟨?_, ?_, List.enumFrom_map_fst 1 t.Fields, List.enumFrom_map_snd 1 t.Fields⟩
  · have h := StructDesc.protobufLoop_text Camel2Snake heap t.Fields []
      ("message " ++ t.TName ++ "\x7b\n")
    simp only [List.length_nil, List.count_nil, Function.iterate_zero, id_eq, zero_add,
      List.nil_append] at h
    simp only [StructDesc.ProtobufVer, Token.asString, h]
  · intro hnd
    have h := StructDesc.protobufLoop_text_nodup Camel2Snake heap t.Fields 0
      ("message " ++ t.TName ++ "\x7b\n") heap hnd (fun _ _ => rfl)
    simp only [StructDesc.ProtobufVer, Token.asString, h, zero_add, StructDescMem.read,
      List.enumFrom_map, List.map_map]
    rfl

/-- C8 at the struct `Pet` that lists the two objects `Name string` and `Age int`. -/
theorem C8_message_lines_numbered_witness :
    (StructDesc.ProtobufVer id { TName := "Pet", Fields := [0, 1], dependencies := [] }
        (fun p => if p = 0 then parseField "Name" "string" else parseField "Age" "int")).1 =
      "message " ++ "Pet" ++ "\x7b\n" ++
        String.join ((([parseField "Name" "string", parseField "Age" "int"]).enumFrom 1).map
          (fun p => "    " ++ (p.2.ProtobufVer id (p.1 : Int)).1 ++ "\n")) ++
        "\x7d" :=
  (C8_message_lines_numbered id { TName := "Pet", Fields := [0, 1], dependencies := [] }
    (fun p => if p = 0 then parseField "Name" "string" else parseField "Age" "int")).2.1
    (by decide)

/-- C9: for a `FieldDesc` built by `parseField` and every index, `ProtobufVer(idx)` returns
`<T> <Camel2Snake(FName)> = <idx>;`, with `repeated ` in front exactly when `IsSlice` is set,
where `T` is the table's value for `FType` when `IsPrimitive` is set and `FType` itself when it
is not. -/
theorem C9_field_line (Camel2Snake : String → String) (name t : Token) (idx : Int) :
    ∃ T : String,
      ((parseField name t).IsPrimitive = true →
        builtinTypeMapping.lookup (parseField name t).FType = some T) ∧
      ((parseField name t).IsPrimitive = false → T = (parseField name t).FType) ∧
      ((parseField name t).ProtobufVer Camel2Snake idx).1 =
        (if (parseField name t).IsSlice then "repeated " else "") ++
          (T ++ " " ++ Camel2Snake (parseField name t).FName ++ " = " ++ toString idx ++
            ";") := by
  cases hp : (parseField name t).IsPrimitive with
  | true =>
    refine ⟨(mapIndex builtinTypeMapping (parseField name t).FType).1, ?_, ?_, ?_⟩
    · intro _
      exact mapIndex_lookup _ _ (by rw [← parseField_isPrimitive, hp])
    · intro hc; exact Bool.noConfusion hc
    · rw [FieldDesc.ProtobufVer_text, hp]; rfl
  | false =>
    refine ⟨(parseField name t).FType, ?_, ?_, ?_⟩
    · intro hc; exact Bool.noConfusion hc
    · intro _; rfl
    · rw [FieldDesc.ProtobufVer_text, hp]; rfl

/-- C9 at the slice field `Tags []string`, index 3: the line is `repeated string Tags = 3;`
before the name conversion (here the identity). -/
theorem C9_field_line_witness :
    (parseField "Tags" "[]string").IsPrimitive = true ∧
    (parseField "Tags" "[]string").IsSlice = true ∧
    ∃ T : String,
      ((parseField "Tags" "[]string").IsPrimitive = true →
        builtinTypeMapping.lookup (parseField "Tags" "[]string").FType = some T) ∧
      ((parseField "Tags" "[]string").IsPrimitive = false →
        T = (parseField "Tags" "[]string").FType) ∧
      ((parseField "Tags" "[]string").ProtobufVer id 3).1 =
        (if (parseField "Tags" "[]string").IsSlice then "repeated " else "") ++
          (T ++ " " ++ id (parseField "Tags" "[]string").FName ++ " = " ++
            toString (3 : Int) ++ ";") :=
  ⟨by decide, by decide, C9_field_line id "Tags" "[]string" 3⟩

/-- C10 fails on a `float32` field: the first call of `ProtobufVer` stores `float`, which is
not a key of the table, so the second call stores the empty type name and returns another
text. -/
theorem C10_float_field_rendered_twice :
    (parseField "W" "float32").IsPrimitive = true ∧
    ((parseField "W" "float32").ProtobufVer id 1).1 = "float W = 1;" ∧
    ((parseField "W" "float32").ProtobufVer id 1).2.FType = "float" ∧
    ((((parseField "W" "float32").ProtobufVer id 1).2).ProtobufVer id 1).1 = " W = 1;" ∧
    ((((parseField "W" "float32").ProtobufVer id 1).2).ProtobufVer id 1).2.FType = "" := by
  decide

/-- C11, as stated, fails: on the empty token stream `Parse` returns the nil slice, not an
empty non-nil one (the named result is never assigned). -/
theorem C11_empty_stream_result_is_nil :
    Parse id [] = (none, none) ∧ (Parse id []).1 ≠ some [] := by
  have h : Parse id [] = (none, none) := by
    unfold Parse NewTokenIterator
    simp only
    rw [TokenIterator.NextNonNewLine_nil]
    exact Parse.typeLoop_exhausted id "" (some errNoMoreTokens) none
  refine ⟨h, ?_⟩
  rw [h]
  exact fun hc => Option.noConfusion hc

/-- C11, amended: `Parse` applied to the empty token stream returns an empty result list,
the nil slice, with no error. -/
theorem C11_empty_stream (Quote : Token → String) : Parse Quote [] = (none, none) := by
  unfold Parse NewTokenIterator
  simp only
  rw [TokenIterator.NextNonNewLine_nil]
  exact Parse.typeLoop_exhausted Quote "" (some errNoMoreTokens) none

/-- C12: on a cursor at position `i < n`, `Next` returns the string of the rune at index `i`
with no error and sets the position to `i + 1`; at `i = n` it fails with "no more character"
and leaves the cursor unchanged; the string of the rune of a character is that one
character. -/
theorem C12_next (cit : CharIterator) (hn : cit.n = (cit.runes.length : Int))
    (h0 : 0 ≤ cit.i) :
    (cit.i < cit.n →
      ∃ r, runeAt cit.runes cit.i = some r ∧
        cit.Next = ((runeString r, none), { cit with i := cit.i + 1 })) ∧
    (cit.i = cit.n → cit.Next = (("", some "no more character"), cit)) ∧
    (∀ c : Char, runeString (c.toNat : Int) = String.singleton c) := by
  refine ⟨?_, ?_, runeString_char⟩
  · intro hlt
    have hb : cit.HasNext = true := by simp [CharIterator.HasNext, hlt]
    have hidx : cit.i.toNat < cit.runes.length := by omega
    refine ⟨cit.runes.get ⟨cit.i.toNat, hidx⟩, ?_, ?_⟩
    · simp [runeAt, h0, List.get?_eq_get hidx]
    · have hr : runeAt cit.runes cit.i = some (cit.runes.get ⟨cit.i.toNat, hidx⟩) := by
        simp [runeAt, h0, List.get?_eq_get hidx]
      unfold CharIterator.Next
      simp only [hb, Bool.not_true, Bool.false_eq_true, if_false, hr]
  · intro he
    have hb : cit.HasNext = false := by simp [CharIterator.HasNext, he]
    unfold CharIterator.Next
    simp [hb]

/-- C12 at the cursor over "ab" at position 1: `Next` returns "b" and moves to 2. -/
theorem C12_next_witness :
    ∃ r, runeAt (toRunes "ab") 1 = some r ∧
      ({ i := 1, runes := toRunes "ab", n := 2 } : CharIterator).Next =
        ((runeString r, none), { i := 1 + 1, runes := toRunes "ab", n := 2 }) :=
  (C12_next { i := 1, runes := toRunes "ab", n := 2 } (by decide) (by decide)).1 (by decide)

/-- C13: the table maps `int`, `int8`, `int16`, `int32` to `int32`; `int64` to `int64`;
`uint`, `uint8`, `uint16`, `uint32` to `uint32`; `uint64` to `uint64`; `float32` and
`float64` to `float`; `string` and `rune` to themselves; and it has no other key. -/
theorem C13_type_mapping_table :
    builtinTypeMapping.lookup "int" = some "int32" ∧
    builtinTypeMapping.lookup "int8" = some "int32" ∧
    builtinTypeMapping.lookup "int16" = some "int32" ∧
    builtinTypeMapping.lookup "int32" = some "int32" ∧
    builtinTypeMapping.lookup "int64" = some "int64" ∧
    builtinTypeMapping.lookup "uint" = some "uint32" ∧
    builtinTypeMapping.lookup "uint8" = some "uint32" ∧
    builtinTypeMapping.lookup "uint16" = some "uint32" ∧
    builtinTypeMapping.lookup "uint32" = some "uint32" ∧
    builtinTypeMapping.lookup "uint64" = some "uint64" ∧
    builtinTypeMapping.lookup "float32" = some "float" ∧
    builtinTypeMapping.lookup "float64" = some "float" ∧
    builtinTypeMapping.lookup "string" = some "string" ∧
    builtinTypeMapping.lookup "rune" = some "rune" ∧
    ∀ k : Token, (builtinTypeMapping.lookup k).isSome = true ↔
      k ∈ ["int", "int8", "int16", "int32", "int64", "uint", "uint8", "uint16", "uint32",
        "uint64", "float32", "float64", "string", "rune"] := by
  refine ⟨by decide, by decide, by decide, by decide, by decide, by decide, by decide,
    by decide, by decide, by decide, by decide, by decide, by decide, by decide, ?_⟩
  intro k
  rw [← mapIndex_snd, mapIndex_found_iff]
  simp only [builtinTypeMapping, List.map_cons, List.map_nil, List.mem_cons,
    List.mem_singleton, List.not_mem_nil, or_false]
  tauto

/-- C14: `StructDesc.String` returns `type <TName> struct {` and a newline, then for each
field in declaration order the line `<FName> <FType>` with the tag `json:"<snake name>"` in
backticks, followed by ` // <SlashedComment>` exactly when the comment is not empty, and a
newline, then `}`; `FType` is the stored type name, and the call changes no field. -/
theorem C14_struct_text (Camel2Snake : String → String) (t : StructDesc) :
    (t.asString Camel2Snake).1 =
      "type " ++ t.TName ++ " struct \x7b\n" ++
        String.join (t.Fields.map (fun f =>
          f.FName ++ " " ++ f.FType ++ " `json:\"" ++ Camel2Snake f.FName ++ "\"`" ++
            (if f.SlashedComment = "" then "" else " // " ++ f.SlashedComment) ++ "\n")) ++
        "\x7d" ∧
    (t.asString Camel2Snake).2 = t := by
  have hline : ∀ f : FieldDesc, (f.asString Camel2Snake).1 =
      f.FName ++ " " ++ f.FType ++ " `json:\"" ++ Camel2Snake f.FName ++ "\"`" ++
        (if f.SlashedComment = "" then "" else " // " ++ f.SlashedComment) := by
    intro f
    unfold FieldDesc.asString
    by_cases hc : f.SlashedComment = ""
    · have hz : ¬ f.SlashedComment.utf8ByteSize > 0 := by
        rw [utf8ByteSize_pos_iff]; exact fun h => h hc
      simp only [Token.asString]
      rw [if_neg hz, if_pos hc, String.append_empty]
    · have hz : f.SlashedComment.utf8ByteSize > 0 := (utf8ByteSize_pos_iff _).mpr hc
      simp only [Token.asString]
      rw [if_pos hz, if_neg hc]
  unfold StructDesc.asString
  simp only [StructDesc.stringLoop_spec, hline, Token.asString]
  exact ⟨trivial, trivial⟩

/-- C15: `GetField(name)` fails with "no such field" if and only if no field of the struct
has `FName` equal to `name`; otherwise it returns, with no error, the first field in
declaration order whose `FName` equals `name`. -/
theorem C15_get_field (t : StructDesc) (name : String) :
    ((t.GetField name).2 = some "no such field" ↔ ∀ f ∈ t.Fields, f.FName ≠ name) ∧
    ((∀ f ∈ t.Fields, f.FName ≠ name) → t.GetField name = (none, some "no such field")) ∧
    (∀ f, t.Fields.find? (fun g => g.FName == name) = some f →
      t.GetField name = (some f, none)) := by
  refine ⟨StructDesc.getFieldLoop_none t.Fields name, ?_, ?_⟩
  · intro h
    have hfind : t.Fields.find? (fun g => g.FName == name) = none := by
      rw [List.find?_eq_none]
      intro f hf
      simpa using h f hf
    unfold StructDesc.GetField
    rw [StructDesc.getFieldLoop_eq, hfind]
  · intro f hf
    unfold StructDesc.GetField
    rw [StructDesc.getFieldLoop_eq, hf]

/-- C15 at the struct with the fields `Name string`, `Age int`, `Name int`: the lookup of
`Name` returns the first of the two, the lookup of `Id` fails. -/
theorem C15_get_field_witness :
    StructDesc.GetField
        { TName := "Pet",
          Fields := [parseField "Name" "string", parseField "Age" "int",
            parseField "Name" "int"],
          dependencies := [] } "Name" = (some (parseField "Name" "string"), none) ∧
    StructDesc.GetField
        { TName := "Pet",
          Fields := [parseField "Name" "string", parseField "Age" "int",
            parseField "Name" "int"],
          dependencies := [] } "Id" = (none, some "no such field") :=
  ⟨(C15_get_field _ "Name").2.2 (parseField "Name" "string") (by decide),
    (C15_get_field _ "Id").2.1 (by decide)⟩

/-- C16: for a token stream without newline tokens that ends inside a type block, behind the
opening brace and a whole number of (field name, field type) pairs, `Parse` returns the same
successful result as for that stream with the closing brace appended. -/
theorem C16_unterminated_block (Quote : Token → String) (blocks : List TypeBlock)
    (b : TypeBlock) (h : ∀ c ∈ blocks, c.WellFormed) (hb : b.WellFormed) :
    Parse Quote (blocks.flatMap TypeBlock.tokens ++ b.openTokens) =
      Parse Quote (blocks.flatMap TypeBlock.tokens ++ b.openTokens ++ [RtCurlBrace]) ∧
    Parse Quote (blocks.flatMap TypeBlock.tokens ++ b.openTokens) =
      (some (blocks.map TypeBlock.desc ++ [b.desc]), none) := by
  have hopen : Parse Quote (blocks.flatMap TypeBlock.tokens ++ b.openTokens) =
      (some (blocks.map TypeBlock.desc ++ [b.desc]), none) := by
    unfold Parse NewTokenIterator
    simp only
    rw [Parse.typeLoop_blocks_then Quote blocks b.openTokens h none,
      Parse.typeLoop_open_block Quote b hb, foldl_goAppend_none]
    cases blocks <;> simp [goAppend]
  have hall : ∀ c ∈ blocks ++ [b], c.WellFormed := by
    intro c hc
    rcases List.mem_append.mp hc with hc | hc
    · exact h c hc
    · rw [List.mem_singleton.mp hc]; exact hb
  have htoks : blocks.flatMap TypeBlock.tokens ++ b.openTokens ++ [RtCurlBrace] =
      (blocks ++ [b]).flatMap TypeBlock.tokens := by
    simp [List.flatMap_append, TypeBlock.tokens, TypeBlock.openTokens]
  have hclosed : Parse Quote
      (blocks.flatMap TypeBlock.tokens ++ b.openTokens ++ [RtCurlBrace]) =
      (some (blocks.map TypeBlock.desc ++ [b.desc]), none) := by
    rw [htoks]
    unfold Parse NewTokenIterator
    simp only
    rw [Parse.typeLoop_blocks Quote (blocks ++ [b]) hall none, foldl_goAppend_none]
    simp
  exact ⟨hopen.trans hclosed.symm, hopen⟩

/-- C16 at `type Pet struct { Name string`, behind the complete block
`type Tag struct { }`. -/
theorem C16_unterminated_block_witness :
    Parse id ["type", "Tag", "struct", "\x7b", "\x7d",
        "type", "Pet", "struct", "\x7b", "Name", "string"] =
      Parse id ["type", "Tag", "struct", "\x7b", "\x7d",
        "type", "Pet", "struct", "\x7b", "Name", "string", "\x7d"] ∧
    Parse id ["type", "Tag", "struct", "\x7b", "\x7d",
        "type", "Pet", "struct", "\x7b", "Name", "string"] =
      (some [{ TName := "Tag", Fields := [], dependencies := [] },
             { TName := "Pet", Fields := [parseField "Name" "string"],
               dependencies := [] }], none) :=
  C16_unterminated_block id [{ N := "Tag", fields := [] }]
    { N := "Pet", fields := [("Name", "string")] } (by decide) (by decide)

/-- C17: `JumpTo` never matches the character at the current position: on a cursor at
position `i < n` whose rune at `i` is `tar`, with no `tar` at any index greater than `i`,
`JumpTo(tar)` fails with "cannot jump to <tar>" and leaves the position at `n`. -/
theorem C17_jump_skips_current (QuoteRune : rune → String) (cit : CharIterator) (tar : rune)
    (_hn : cit.n = (cit.runes.length : Int)) (_h0 : 0 ≤ cit.i) (hp : cit.i < cit.n)
    (_hat : runeAt cit.runes cit.i = some tar)
    (hno : ∀ j, cit.i < j → runeAt cit.runes j ≠ some tar) :
    cit.JumpTo QuoteRune tar =
      (some ("cannot jump to " ++ QuoteRune tar), { cit with i := cit.n }) := by
  have hstop : (CharIterator.jumpLoop { cit with i := cit.i + 1 } tar).i = cit.n :=
    CharIterator.jumpLoop_absent_from { cit with i := cit.i + 1 } tar (by simp only; omega)
      (fun j hj => hno j (by simp only at hj; omega))
  rw [CharIterator.JumpTo_of_hasNext QuoteRune cit tar hp, if_pos hstop]

/-- C17 at the cursor over ",ab" at position 0 with target ','. -/
theorem C17_jump_skips_current_witness :
    ({ i := 0, runes := toRunes ",ab", n := 3 } : CharIterator).JumpTo (fun _ => "','") 44 =
      (some ("cannot jump to " ++ "','"), { i := 3, runes := toRunes ",ab", n := 3 }) :=
  C17_jump_skips_current (fun _ => "','") { i := 0, runes := toRunes ",ab", n := 3 } 44
    (by decide) (by decide) (by decide) (by decide)
    (fun j hj => by
      simp only at hj
      unfold runeAt
      split
      · have hj2 : j.toNat = 1 ∨ j.toNat = 2 ∨ 3 ≤ j.toNat := by omega
        rcases hj2 with h | h | h
        · rw [h]; decide
        · rw [h]; decide
        · rw [List.get?_eq_none.mpr (by simpa [toRunes] using h)]
          exact fun hc => Option.noConfusion hc
      · exact fun hc => Option.noConfusion hc)

/-- C18: `Parse` terminates on every finite token stream: a fetch made while a token is left
consumes at least one token and no fetch adds one, so the inner loop enters its body at most
as often as tokens are left, and `Parse` run with a budget of as many iterations as the
stream has tokens returns the result of `Parse`. -/
theorem C18_parse_terminates (Quote : Token → String) :
    (∀ it : TokenIterator, it.HasNext = true →
      it.NextNonNewLine.2.rest.length < it.rest.length) ∧
    (∀ it : TokenIterator, it.NextNonNewLine.2.rest.length ≤ it.rest.length) ∧
    (∀ (fuel : Nat) (it : TokenIterator) (fieldName : Token) (err : Option String)
      (fieldDescList : List FieldDesc), it.rest.length ≤ fuel →
        Parse.fieldLoopN fuel it fieldName err fieldDescList =
          some (Parse.fieldLoop it fieldName err fieldDescList)) ∧
    (∀ (fuel : Nat) (tokens : List Token), tokens.length ≤ fuel →
      ParseN Quote fuel tokens = some (Parse Quote tokens)) := by
  refine ⟨fun it => (TokenIterator.NextNonNewLine_length it).2,
    fun it => (TokenIterator.NextNonNewLine_length it).1, Parse.fieldLoopN_eq, ?_⟩
  intro fuel tokens h
  have hlen := (TokenIterator.NextNonNewLine_length (NewTokenIterator tokens)).1
  have hnew : (NewTokenIterator tokens).rest.length = tokens.length := rfl
  unfold ParseN Parse
  simp only
  exact Parse.typeLoopN_eq Quote fuel _ _ _ _ (by omega)

/-- C18 at `type Pet struct { Name string }`: a budget of 7 iterations, the number of
tokens, is enough. -/
theorem C18_parse_terminates_witness :
    ParseN id 7 ["type", "Pet", "struct", "\x7b", "Name", "string", "\x7d"] =
      some (Parse id ["type", "Pet", "struct", "\x7b", "Name", "string", "\x7d"]) :=
  (C18_parse_terminates id).2.2.2 7
    ["type", "Pet", "struct", "\x7b", "Name", "string", "\x7d"] (by decide)

/-- C19: the field builder loses no information: for `f = parseField(n, t)`, the text `[]`
if `f.IsSlice`, then `*` if `f.IsPointer`, then `f.FType` is `t`; `f.FName` and `f.OrigFName`
are `n`; and each marker is stripped at most once: `[][]int` keeps `[]int`, and `*[]T` keeps
`[]T` with `IsSlice` unset. -/
theorem C19_field_builder_keeps_type (n t : Token) :
    (if (parseField n t).IsSlice then "[]" else "") ++
      ((if (parseField n t).IsPointer then "*" else "") ++ (parseField n t).FType) = t ∧
    (parseField n t).FName = n ∧ (parseField n t).OrigFName = n ∧
    (parseField n "[][]int").IsSlice = true ∧ (parseField n "[][]int").FType = "[]int" ∧
    (parseField n "*[]T").IsPointer = true ∧ (parseField n "*[]T").IsSlice = false ∧
    (parseField n "*[]T").FType = "[]T" := by
  obtain ⟨hf, ho, hs, hp, ht⟩ := parseField_parts n t
  refine ⟨?_, hf, ho, rfl, rfl, rfl, rfl, rfl⟩
  rw [hs, hp, ht]
  have hslice := Token.startsWith_sliceFrom t Slice
  cases h1 : Token.StartsWith t Slice with
  | true =>
    have e1 : Slice ++ Token.sliceFrom t 2 = t := hslice h1
    have hstar := Token.startsWith_sliceFrom (Token.sliceFrom t 2) Star
    simp only [if_true]
    cases h2 : Token.StartsWith (Token.sliceFrom t 2) Star with
    | true =>
      have e2 : Star ++ Token.sliceFrom (Token.sliceFrom t 2) 1 = Token.sliceFrom t 2 :=
        hstar h2
      simp only [if_true]
      calc "[]" ++ ("*" ++ Token.sliceFrom (Token.sliceFrom t 2) 1)
          = Slice ++ (Star ++ Token.sliceFrom (Token.sliceFrom t 2) 1) := rfl
        _ = t := by rw [e2, e1]
    | false =>
      simp only [Bool.false_eq_true, if_false, String.empty_append]
      exact e1
  | false =>
    have hstar := Token.startsWith_sliceFrom t Star
    simp only [Bool.false_eq_true, if_false, String.empty_append]
    cases h2 : Token.StartsWith t Star with
    | true =>
      have e2 : Star ++ Token.sliceFrom t 1 = t := hstar h2
      simp only [if_true]
      exact e2
    | false =>
      simp only [Bool.false_eq_true, if_false, String.empty_append]

/-- C20: the last token of a stream is never checked at a block-start position: for a
concatenation of well-formed type blocks, possibly none, and one more token `x` that is not
the newline, `Parse` succeeds and returns the list it returns without `x`. -/
theorem C20_trailing_token_ignored (Quote : Token → String) (blocks : List TypeBlock)
    (x : Token) (h : ∀ b ∈ blocks, b.WellFormed) (hx : x ≠ NewLine) :
    Parse Quote (blocks.flatMap TypeBlock.tokens ++ [x]) =
      Parse Quote (blocks.flatMap TypeBlock.tokens) ∧
    Parse Quote (blocks.flatMap TypeBlock.tokens ++ [x]) =
      (if blocks.isEmpty then none else some (blocks.map TypeBlock.desc), none) := by
  have hx1 : Parse Quote (blocks.flatMap TypeBlock.tokens ++ [x]) =
      ((blocks.map TypeBlock.desc).foldl goAppend none, none) := by
    unfold Parse NewTokenIterator
    simp only
    rw [Parse.typeLoop_blocks_then Quote blocks [x] h none,
      TokenIterator.NextNonNewLine_cons _ _ hx]
    exact Parse.typeLoop_exhausted Quote x none _
  have hx0 : Parse Quote (blocks.flatMap TypeBlock.tokens) =
      ((blocks.map TypeBlock.desc).foldl goAppend none, none) := by
    unfold Parse NewTokenIterator
    simp only
    exact Parse.typeLoop_blocks Quote blocks h none
  refine ⟨hx1.trans hx0.symm, ?_⟩
  rw [hx1, foldl_goAppend_none]
  cases blocks <;> simp

/-- C20 at `type Tag struct { }` followed by the lone token `func`. -/
theorem C20_trailing_token_ignored_witness :
    Parse id ["type", "Tag", "struct", "\x7b", "\x7d", "func"] =
      Parse id ["type", "Tag", "struct", "\x7b", "\x7d"] ∧
    Parse id ["type", "Tag", "struct", "\x7b", "\x7d", "func"] =
      (some [{ TName := "Tag", Fields := [], dependencies := [] }], none) :=
  C20_trailing_token_ignored id [{ N := "Tag", fields := [] }] "func" (by decide) (by decide)

end IdlConv
